import Mathlib

/-!
# Verification of the dependency-graph engine (topology agent + extractor)

Shallow embedding of `src/agents/topology.py` (graph assembly, metrics,
SPOF detection, cycle detection) and of the dispatch / SQL-detection logic
of `src/skills/tree_sitter_parser.py`, with theorems settling the frozen
claims about the natural-language specification.

The graph is a networkx `DiGraph`: a simple directed graph whose nodes and
edges carry attribute dictionaries.  `add_node` on an existing node updates
its attributes; `add_edge` implicitly creates missing endpoint nodes (with
an empty attribute dictionary) and, on an existing `(source, target)` pair,
overwrites the edge attributes.  Insertion order is preserved.  We model the
node set as an insertion-ordered list of unique ids and the edge set as an
insertion-ordered list of unique ordered pairs; the relative order in which
`G.edges()` iterates differs from ours in general, but no claim depends on
edge iteration order, only on membership and attribute values.
-/

namespace Alip

/-- Node metadata dictionary of `topology.py`: `{'lines': …, 'language': …}`
for module nodes, `{'columns': …, 'indexes': …}` for table nodes. -/
inductive NodeMeta where
  | moduleMeta (lines : Nat) (language : String)
  | tableMeta (columns : Nat) (indexes : Nat)
deriving DecidableEq

/-- The attribute dictionary `add_node` stores: `type`, `name`, `metadata`. -/
structure NodeInfo where
  type_ : String
  name : String
  meta : NodeMeta
deriving DecidableEq

/-- A graph node: id plus its attribute dictionary.  `attrs = none` models a
node auto-created by `add_edge`, whose attribute dictionary is empty. -/
structure GNode where
  id : String
  attrs : Option NodeInfo
deriving DecidableEq

/-- Edge metadata dictionaries of `topology.py`: `{'column': …}` for
`references`, `{'query_type': …, 'line': …}` for `uses`,
`{'import': …}` for `imports`. -/
inductive EdgeMeta where
  | refMeta (column : String)
  | usesMeta (queryType : String) (line : Option Nat)
  | importsMeta (target : String)
deriving DecidableEq

/-- A directed edge with its attribute dictionary (`type`, `metadata`). -/
structure GEdge where
  src : String
  tgt : String
  type_ : String
  meta : EdgeMeta
deriving DecidableEq

/-- The networkx `DiGraph`, as an insertion-ordered node list plus an
insertion-ordered edge list keyed by the ordered `(src, tgt)` pair. -/
structure Graph where
  nodes : List GNode
  edges : List GEdge
deriving DecidableEq

/-- `graph.has_node(i)`. -/
def hasNode (g : Graph) (i : String) : Bool :=
  g.nodes.any (fun n => decide (n.id = i))

/-- `graph.add_node(i, type=…, name=…, metadata=…)`: update the attribute
dictionary of an existing node, otherwise append a fresh node. -/
def addNode (g : Graph) (i : String) (info : NodeInfo) : Graph :=
  if hasNode g i then
    { g with nodes := g.nodes.map (fun n => if n.id = i then { id := i, attrs := some info } else n) }
  else
    { g with nodes := g.nodes ++ [{ id := i, attrs := some info }] }

/-- The node-creating side effect of `add_edge`: a missing endpoint is added
with an empty attribute dictionary. -/
def ensureNode (g : Graph) (i : String) : Graph :=
  if hasNode g i then g else { g with nodes := g.nodes ++ [{ id := i, attrs := none }] }

/-- `graph.has_edge(s, t)` (pair membership). -/
def hasEdge (g : Graph) (s t : String) : Bool :=
  g.edges.any (fun e => decide (e.src = s ∧ e.tgt = t))

/-- The edge-writing half of `add_edge`: an existing `(s, t)` edge has its
`type`/`metadata` overwritten, otherwise the edge is appended. -/
def updateEdges (g : Graph) (s t ty : String) (m : EdgeMeta) : Graph :=
  if hasEdge g s t then
    { g with edges := g.edges.map (fun e =>
        if e.src = s ∧ e.tgt = t then { src := s, tgt := t, type_ := ty, meta := m } else e) }
  else
    { g with edges := g.edges ++ [{ src := s, tgt := t, type_ := ty, meta := m }] }

/-- `graph.add_edge(s, t, type=ty, metadata=m)`: endpoints are created if
missing, then the edge record is written. -/
def addEdge (g : Graph) (s t ty : String) (m : EdgeMeta) : Graph :=
  updateEdges (ensureNode (ensureNode g s) t) s t ty m

/-- Python `set.add` where only the membership/size is consumed. -/
def setAdd (s : List String) (x : String) : List String :=
  if x ∈ s then s else s ++ [x]

/-- One `sql_queries` entry of a repository file record:
`{'query': …, 'line': …, 'type': …, 'table': …}`.  `table`, `qtype` and
`line` model `dict.get` results that may be absent/`None`. -/
structure SqlQuery where
  query : String
  table : Option String
  qtype : Option String
  line : Option Nat
deriving DecidableEq

/-- One file record of the repository-inventory artifact
(`repo_artifact.data['files'][i]`). -/
structure FileInfo where
  path : String
  extension : String
  lines : Nat
  imports : List String
  sql_queries : List SqlQuery
deriving DecidableEq

/-- The `foreign_key` dictionary of a column: `{'table': …, 'column': …}`. -/
structure FKey where
  table : Option String
  column : Option String
deriving DecidableEq

/-- One column record of a schema table. -/
structure ColumnInfo where
  name : String
  foreign_key : Option FKey
deriving DecidableEq

/-- One table record of the database-schema artifact.  Only the length of
`indexes` is consumed, so the index records are modelled by their names. -/
structure TableInfo where
  name : String
  columns : List ColumnInfo
  indexes : List String
deriving DecidableEq

/-- The repository-inventory artifact data that `build_topology` reads. -/
structure RepoData where
  files : List FileInfo
deriving DecidableEq

/-- The database-schema artifact data that `build_topology` reads. -/
structure DbData where
  tables : List TableInfo
deriving DecidableEq

/-- `f"module:{path}"`. -/
def moduleNodeId (path : String) : String := "module:" ++ path

/-- `f"table:{name}"`. -/
def tableNodeId (name : String) : String := "table:" ++ name

/-- `_extract_modules`: one module node per `.py` file record; returns the
graph and the `modules` set (source-reference logging is I/O and omitted). -/
def extract_modules (repo : RepoData) (g : Graph) : Graph × List String :=
  repo.files.foldl
    (fun acc f =>
      if f.extension = ".py" then
        (addNode acc.1 (moduleNodeId f.path)
          { type_ := "module", name := f.path, meta := .moduleMeta f.lines "Python" },
         setAdd acc.2 (moduleNodeId f.path))
      else acc)
    (g, [])

/-- The foreign-key pass of `_extract_tables` for one table: for each column
carrying a `foreign_key` with a truthy `table` value, `add_edge` the
`references` edge (the referenced node is *not* checked for existence). -/
def tableFkStep (tid : String) (g : Graph) (c : ColumnInfo) : Graph :=
  match c.foreign_key with
  | none => g
  | some fk =>
    match fk.table with
    | none => g
    | some ft => if ft = "" then g else addEdge g tid (tableNodeId ft) "references" (.refMeta c.name)

/-- `_extract_tables` body for one table record. -/
def tableStep (acc : Graph × List String) (t : TableInfo) : Graph × List String :=
  let tid := tableNodeId t.name
  let g1 := addNode acc.1 tid
    { type_ := "table", name := t.name, meta := .tableMeta t.columns.length t.indexes.length }
  let s1 := setAdd acc.2 tid
  (t.columns.foldl (tableFkStep tid) g1, s1)

/-- `_extract_tables`: one table node per schema table, plus the
foreign-key `references` edges; returns the graph and the `tables` set. -/
def extract_tables (db : DbData) (g : Graph) : Graph × List String :=
  db.tables.foldl tableStep (g, [])

/-- The inner query loop of `_analyze_code_db_dependencies`. -/
def queryStep (mid : String) (g : Graph) (q : SqlQuery) : Graph :=
  match q.table with
  | none => g
  | some tb =>
    if tb = "" then g
    else if hasNode g (tableNodeId tb) then
      addEdge g mid (tableNodeId tb) "uses" (.usesMeta (q.qtype.getD "unknown") q.line)
    else g

/-- `_analyze_code_db_dependencies`: `uses` edges from `.py` modules to
existing table nodes, one per attributed SQL query. -/
def analyze_code_db_dependencies (repo : RepoData) (g : Graph) : Graph :=
  repo.files.foldl
    (fun g f =>
      if f.extension = ".py" then
        if hasNode g (moduleNodeId f.path) then
          f.sql_queries.foldl (queryStep (moduleNodeId f.path)) g
        else g
      else g)
    g

/-- Python-dict insert: overwrite an existing key in place, else append. -/
def dictInsert (m : List (String × String)) (k v : String) : List (String × String) :=
  if m.any (fun p => decide (p.1 = k)) then
    m.map (fun p => if p.1 = k then (k, v) else p)
  else m ++ [(k, v)]

/-- Python-dict lookup (`k in m` / `m.get(k)`). -/
def dictFind? {α : Type} (m : List (String × α)) (k : String) : Option α :=
  (m.find? (fun p => decide (p.1 = k))).map (fun p => p.2)

/-- `path.replace('/', '.')` — single-character replacement. -/
def slashToDot (path : String) : String :=
  ⟨path.data.map (fun c => if c = '/' then '.' else c)⟩

/-- Left-to-right non-overlapping removal of every occurrence of `".py"`,
the list-level engine of `str.replace('.py', '')`. -/
def stripDotPy : List Char → List Char
  | '.' :: 'p' :: 'y' :: rest => stripDotPy rest
  | c :: cs => c :: stripDotPy cs
  | [] => []

/-- `path.replace('/', '.').replace('.py', '')` — the canonical module name
used as the key of the module-name map. -/
def moduleName (path : String) : String := ⟨stripDotPy (slashToDot path).data⟩

/-- The `module_map` built by `_analyze_module_dependencies`. -/
def buildModuleMap (repo : RepoData) : List (String × String) :=
  repo.files.foldl
    (fun m f =>
      if f.extension = ".py" then dictInsert m (moduleName f.path) (moduleNodeId f.path)
      else m)
    []

/-- The inner import loop of `_analyze_module_dependencies`. -/
def importStep (mmap : List (String × String)) (mid : String) (g : Graph) (imp : String) : Graph :=
  match dictFind? mmap imp with
  | none => g
  | some tgt => if hasNode g tgt then addEdge g mid tgt "imports" (.importsMeta imp) else g

/-- `_analyze_module_dependencies`: `imports` edges between `.py` modules,
resolved through the module-name map. -/
def analyze_module_dependencies (repo : RepoData) (g : Graph) : Graph :=
  let mmap := buildModuleMap repo
  repo.files.foldl
    (fun g f =>
      if f.extension = ".py" then
        f.imports.foldl (importStep mmap (moduleNodeId f.path)) g
      else g)
    g

/-! ## Structural analyzer -/

/-- The ids of the graph's nodes, in insertion order. -/
def nodeIds (g : Graph) : List String := g.nodes.map (fun n => n.id)

/-- Edge existence as a Boolean (`graph.has_edge` on endpoint names). -/
def edgeB (g : Graph) (a b : String) : Bool :=
  g.edges.any (fun e => decide (e.src = a ∧ e.tgt = b))

/-- Edge existence as a proposition. -/
def EdgeP (g : Graph) (a b : String) : Prop :=
  ∃ e ∈ g.edges, e.src = a ∧ e.tgt = b

/-- `graph.in_degree(v)`. -/
def inDeg (g : Graph) (v : String) : Nat :=
  (g.edges.filter (fun e => decide (e.tgt = v))).length

/-- `graph.out_degree(v)`. -/
def outDeg (g : Graph) (v : String) : Nat :=
  (g.edges.filter (fun e => decide (e.src = v))).length

/-- Modelled from the spec: the walk-counting engine behind shortest-path
computation in the networkx backend (library code, not in the repository).
`countWalks g d s t` is the number of directed walks of length `d` from `s`
to `t`; every walk of minimal length is a simple path, so the count at the
shortest distance is the number `σ_st` of shortest paths. -/
def countWalks (g : Graph) : Nat → String → String → Nat
  | 0, s, t => if s = t then 1 else 0
  | d + 1, s, t =>
    (g.edges.filter (fun e => decide (e.src = s))).foldl
      (fun acc e => acc + countWalks g d e.tgt t) 0

/-- Modelled from the spec: shortest-path distance from `s` to `t`; a
shortest path visits at most all nodes, so a search up to `nodes.length`
steps is exhaustive. -/
def distB (g : Graph) (s t : String) : Option Nat :=
  if s = t then some 0
  else (List.range (g.nodes.length + 1)).find?
    (fun d => decide (0 < d) && decide (0 < countWalks g d s t))

/-- Modelled from the spec: `σ_st(v)/σ_st`, the fraction of shortest `s→t`
paths passing through `v` (`0` when `t` is unreachable from `s`). -/
def pairDep (g : Graph) (v s t : String) : ℚ :=
  match distB g s t with
  | none => 0
  | some d =>
    match distB g s v, distB g v t with
    | some d1, some d2 =>
      if d1 + d2 = d then
        ((countWalks g d1 s v * countWalks g d2 v t : Nat) : ℚ) / ((countWalks g d s t : Nat) : ℚ)
      else 0
    | _, _ => 0

/-- Modelled from the spec: unnormalized betweenness of `v` — the sum of
`σ_st(v)/σ_st` over ordered pairs `s ≠ t` with both distinct from `v`. -/
def rawBetweenness (g : Graph) (v : String) : ℚ :=
  (nodeIds g).foldl
    (fun acc s =>
      acc + (nodeIds g).foldl
        (fun acc2 t => acc2 + (if s ≠ t ∧ s ≠ v ∧ t ≠ v then pairDep g v s t else 0)) 0)
    0

/-- Modelled from the spec: `nx.betweenness_centrality` with its defaults
(directed, normalized, endpoints excluded): the raw value is rescaled by
`1/((n−1)(n−2))` for `n > 2` and left unscaled otherwise. -/
def betweennessCentrality (g : Graph) (v : String) : ℚ :=
  let n := g.nodes.length
  if n ≤ 2 then rawBetweenness g v
  else rawBetweenness g v / (((n : ℚ) - 1) * ((n : ℚ) - 2))

/-- `nx.betweenness_centrality(graph)` as a dict in node order. -/
def betweennessList (g : Graph) : List (String × ℚ) :=
  (nodeIds g).map (fun v => (v, betweennessCentrality g v))

/-- Modelled from the spec: `nx.degree_centrality` — all-ones when the graph
has at most one node, else `(in+out)/(n−1)` per node. -/
def degreeCentralityVals (g : Graph) : List ℚ :=
  if g.nodes.length ≤ 1 then (nodeIds g).map (fun _ => 1)
  else (nodeIds g).map (fun v => ((inDeg g v + outDeg g v : Nat) : ℚ) / ((g.nodes.length : ℚ) - 1))

/-- Python `max` over a dict's values (the consumers guard non-emptiness). -/
def maxQ : List ℚ → ℚ
  | [] => 0
  | h :: t => t.foldl max h

/-- Modelled from the spec: `nx.density` — `m/(n(n−1))` for a directed
graph, `0` when `m = 0` or `n ≤ 1`. -/
def nxDensity (g : Graph) : ℚ :=
  let n := g.nodes.length
  let m := g.edges.length
  if m = 0 ∨ n ≤ 1 then 0 else (m : ℚ) / ((n : ℚ) * ((n : ℚ) - 1))

/-- `_calculate_metrics`, as the key/value pairs of the returned dict.  The
`try/except` around the centrality block cannot fire (both networkx
functions are total on these graphs), so the two centrality keys are
present exactly when the graph is non-empty. -/
def calculate_metrics (g : Graph) : List (String × ℚ) :=
  [("node_count", (g.nodes.length : ℚ)),
   ("edge_count", (g.edges.length : ℚ)),
   ("density", if 0 < g.nodes.length then nxDensity g else 0)]
  ++ (if 0 < g.nodes.length then
        [("max_degree_centrality", maxQ (degreeCentralityVals g)),
         ("max_betweenness_centrality", maxQ ((betweennessList g).map (fun p => p.2)))]
      else [])

/-- One SPOF record of `_detect_spofs` (`node_data.get('type')` and
`node_data.get('name')` have no default, hence the `Option`s). -/
structure Spof where
  node_id : String
  node_type : Option String
  node_name : Option String
  betweenness_centrality : ℚ
  dependencies_count : Nat
  risk_level : String
deriving DecidableEq

/-- The attribute dictionary of node `v` (`graph.nodes[v]`). -/
def nodeAttrs? (g : Graph) (v : String) : Option NodeInfo :=
  match g.nodes.find? (fun n => decide (n.id = v)) with
  | some n => n.attrs
  | none => none

/-- Stable descending insertion by `betweenness_centrality`, the building
block of `spofs.sort(key=…, reverse=True)`. -/
def insertSpofDesc (r : Spof) : List Spof → List Spof
  | [] => [r]
  | x :: xs =>
    if r.betweenness_centrality < x.betweenness_centrality then x :: insertSpofDesc r xs
    else r :: x :: xs

/-- `spofs.sort(key=lambda x: x['betweenness_centrality'], reverse=True)`. -/
def sortSpofsDesc (l : List Spof) : List Spof := l.foldr insertSpofDesc []

/-- `_detect_spofs`: emit a record per node with betweenness centrality
above `0.1`, then sort descending by centrality. -/
def detect_spofs (g : Graph) : List Spof :=
  if g.nodes.length = 0 then []
  else
    sortSpofsDesc ((betweennessList g).filterMap (fun p =>
      if (1 : ℚ)/10 < p.2 then
        some { node_id := p.1,
               node_type := (nodeAttrs? g p.1).map (fun i => i.type_),
               node_name := (nodeAttrs? g p.1).map (fun i => i.name),
               betweenness_centrality := p.2,
               dependencies_count := inDeg g p.1 + outDeg g p.1,
               risk_level := if (3 : ℚ)/10 < p.2 then "high" else "medium" }
      else none))

/-- Last vertex of the nonempty sequence `h :: t`. -/
def lastOf (h : String) : List String → String
  | [] => h
  | x :: xs => lastOf x xs

/-- Consecutive-edge check for a vertex sequence. -/
def chainB (g : Graph) : List String → Bool
  | [] => true
  | [_] => true
  | a :: b :: rest => edgeB g a b && chainB g (b :: rest)

/-- A nonempty sequence of vertices forming a directed cycle (consecutive
edges plus the closing edge); `[v]` is a cycle exactly on a self-loop. -/
def isCycleSeqB (g : Graph) : List String → Bool
  | [] => false
  | h :: t => chainB g (h :: t) && edgeB g (lastOf h t) h

/-- Canonical-rotation filter: the sequence starts at its member with the
least position in `ids`, so each cycle is enumerated once. -/
def canonicalB (ids : List String) : List String → Bool
  | [] => false
  | h :: t => t.all (fun x => decide (ids.indexOf h ≤ ids.indexOf x))

/-- Modelled from the spec: `nx.simple_cycles` (library code, not in the
repository) — enumerate all simple directed cycles, each as a duplicate-free
vertex sequence implicitly closing from its last element to its first. -/
def simpleCyclesModel (g : Graph) : List (List String) :=
  ((nodeIds g).sublists.flatMap List.permutations).filter
    (fun c => isCycleSeqB g c && canonicalB (nodeIds g) c)

/-- `_detect_circular_dependencies`: all simple cycles of length `> 1`. -/
def detect_circular_dependencies (g : Graph) : List (List String) :=
  (simpleCyclesModel g).filter (fun c => decide (1 < c.length))

/-! ## Serialization (`build_topology` steps 6–7) -/

/-- One serialized node: `{'id', 'type', 'name', 'metadata'}` with the
`.get` defaults of `build_topology` (`'unknown'`, the id, `{}`). -/
structure SerNode where
  id : String
  type_ : String
  name : String
  meta : Option NodeMeta
deriving DecidableEq

/-- One serialized edge: `{'source', 'target', 'type', 'metadata'}`. -/
structure SerEdge where
  source : String
  target : String
  type_ : String
  meta : EdgeMeta
deriving DecidableEq

/-- The node loop of `build_topology` step 7. -/
def serializeNodes (g : Graph) : List SerNode :=
  g.nodes.map (fun n =>
    { id := n.id,
      type_ := (n.attrs.map (fun i => i.type_)).getD "unknown",
      name := (n.attrs.map (fun i => i.name)).getD n.id,
      meta := n.attrs.map (fun i => i.meta) })

/-- The edge loop of `build_topology` step 7 (`type` defaults to `'uses'`
for an attribute-less edge, which never occurs here). -/
def serializeEdges (g : Graph) : List SerEdge :=
  g.edges.map (fun e => { source := e.src, target := e.tgt, type_ := e.type_, meta := e.meta })

/-- The `data` dict of the topology artifact; `statistics` is kept as an
ordered key/value list so that field names can be reasoned about. -/
structure TopoData where
  nodes : List SerNode
  edges : List SerEdge
  spofs : List Spof
  circular_dependencies : List (List String)
  statistics : List (String × Nat)
deriving DecidableEq

/-- The topology artifact: the serialized `data` plus the separate
`metrics` mapping (`AnalysisArtifact.metrics`). -/
structure TopoArtifact where
  data : TopoData
  metrics : List (String × ℚ)
deriving DecidableEq

/-- Steps 1–4 of `build_topology`: the assembled graph plus the `modules`
and `tables` sets. -/
def buildGraph (repo : RepoData) (db : DbData) : Graph × List String × List String :=
  let p1 := extract_modules repo { nodes := [], edges := [] }
  let p2 := extract_tables db p1.1
  let g3 := analyze_code_db_dependencies repo p2.1
  let g4 := analyze_module_dependencies repo g3
  (g4, p1.2, p2.2)

/-- `build_topology` (artifact saving is I/O and omitted): assemble the
graph, run the analyzer, and serialize nodes, edges, SPOFs, cycles,
statistics and metrics. -/
def build_topology (repo : RepoData) (db : DbData) : TopoArtifact :=
  let b := buildGraph repo db
  let g := b.1
  let nodes := serializeNodes g
  let edges := serializeEdges g
  let spofs := detect_spofs g
  let circular := detect_circular_dependencies g
  { data :=
      { nodes := nodes, edges := edges, spofs := spofs, circular_dependencies := circular,
        statistics :=
          [("total_nodes", nodes.length), ("total_edges", edges.length),
           ("modules", b.2.1.length), ("tables", b.2.2.length), ("spof_count", spofs.length)] },
    metrics := calculate_metrics g }

/-! ## Extractor (`src/skills/tree_sitter_parser.py`) -/

/-- `SQL_KEYWORDS` (a Python set; listed here in declaration order — no
consumer depends on iteration order, see `getQueryType`). -/
def sqlKeywords : List String :=
  ["SELECT", "INSERT", "UPDATE", "DELETE", "CREATE", "DROP", "ALTER"]

/-- `text.upper()` at the character-list level (ASCII case mapping). -/
def upperChars (s : String) : List Char := s.data.map Char.toUpper

/-- The detection check of every extractor:
`any(kw in text.upper() for kw in SQL_KEYWORDS)` — plain substring
containment of some keyword in the upper-cased text. -/
def sqlContains (text : String) : Bool :=
  sqlKeywords.any (fun kw => decide (kw.data <:+: upperChars text))

/-- `s.strip(cs)`: drop leading and trailing characters belonging to `cs`. -/
def stripChars (cs : List Char) (s : String) : String :=
  ⟨((s.data.dropWhile (fun c => decide (c ∈ cs))).reverse.dropWhile
      (fun c => decide (c ∈ cs))).reverse⟩

/-- `text.strip('"\'')` as applied to a Python string-literal node. -/
def stripQuotes (s : String) : String := stripChars ['"', '\''] s

/-- `s.strip()` (whitespace at both ends) at the list level. -/
def stripWs (l : List Char) : List Char :=
  ((l.dropWhile Char.isWhitespace).reverse.dropWhile Char.isWhitespace).reverse

/-- `_get_query_type`: the keyword the trimmed upper-cased text starts with
(no two keywords are prefixes of one another, so at most one matches and
the set's iteration order is immaterial). -/
def getQueryType (q : String) : Option String :=
  sqlKeywords.find? (fun kw => kw.data.isPrefixOf (stripWs (upperChars q)))

/-- `\w` of the `re` module, restricted to ASCII input. -/
def isWordChar (c : Char) : Bool := c.isAlphanum || c = '_'

/-- One attempt of `re.search(KW + r'\s+(\w+)', q, re.IGNORECASE)` at a
fixed position: the keyword must match case-insensitively, followed by at
least one whitespace character and at least one word character; the word
is returned in its original case. -/
def tryKwAt (kw : List Char) (l : List Char) : Option String :=
  if (l.take kw.length).map Char.toUpper = kw then
    let rest := l.drop kw.length
    if rest.takeWhile Char.isWhitespace = [] then none
    else
      let word := (rest.dropWhile Char.isWhitespace).takeWhile isWordChar
      if word = [] then none else some ⟨word⟩
  else none

/-- Leftmost-position search for `KW\s+(\w+)`. -/
def scanKw (kw : List Char) : List Char → Option String
  | [] => none
  | c :: rest =>
    match tryKwAt kw (c :: rest) with
    | some w => some w
    | none => scanKw kw rest

/-- `_extract_table_name`: `FROM`, then `INTO`, then `UPDATE`, then
`TABLE`, first pattern that matches anywhere wins. -/
def extractTableName (q : String) : Option String :=
  match scanKw "FROM".data q.data with
  | some w => some w
  | none =>
    match scanKw "INTO".data q.data with
    | some w => some w
    | none =>
      match scanKw "UPDATE".data q.data with
      | some w => some w
      | none => scanKw "TABLE".data q.data

/-- The string-literal branch of `_extract_python`'s tree walk, applied to
the string nodes the walk visits in order (each as raw text plus its
1-based line): strip quotes, keep the literal iff the substring check
fires, and classify it. -/
def pyStringNodeScan (strNodes : List (String × Nat)) : List SqlQuery :=
  strNodes.filterMap (fun p =>
    let text := stripQuotes p.1
    if sqlContains text then
      some { query := text, line := some p.2, qtype := getQueryType text,
             table := extractTableName text }
    else none)

/-- A value of the extraction-result dict. -/
inductive RVal where
  | str (s : String)
  | impDict (imports : List String) (from_imports : List (String × List String))
  | queries (l : List SqlQuery)
  | calls (l : List (String × Nat))
  | strs (l : List String)
deriving DecidableEq

/-- `_empty_result(language)`: the failure record — language tag plus empty
collections; note the absence of any `error` key. -/
def emptyResult (language : String) : List (String × RVal) :=
  [("language", .str language),
   ("imports", .impDict [] []),
   ("sql_queries", .queries []),
   ("db_calls", .calls [])]

/-- `EXTENSION_MAP`. -/
def extensionMap : List (String × String) :=
  [(".py", "python"), (".java", "java"), (".js", "javascript"), (".jsx", "javascript"),
   (".ts", "typescript"), (".tsx", "tsx"), (".cs", "c_sharp"), (".php", "php"),
   (".go", "go"), (".rb", "ruby"), (".rs", "rust"), (".c", "c"), (".h", "c"),
   (".cpp", "cpp"), (".cc", "cpp"), (".hpp", "cpp"), (".sql", "sql")]

/-- `detect_language`: lower-cased suffix against the extension table. -/
def detectLanguage (suffix : String) : Option String :=
  dictFind? extensionMap ⟨suffix.data.map Char.toLower⟩

/-- The languages `_init_parsers` loads (`'sql'` is mapped by the extension
table but has no parser). -/
def loadedParsers : List String :=
  ["python", "java", "javascript", "typescript", "tsx", "c_sharp", "php", "go",
   "ruby", "rust", "c", "cpp"]

/-- Insertion sort by the string order (Python `sorted` on code points). -/
def insertStrAsc (x : String) : List String → List String
  | [] => [x]
  | y :: ys => if x ≤ y then x :: y :: ys else y :: insertStrAsc x ys

/-- `sorted(set(l))`: dedup, then ascending sort. -/
def sortedDedup (l : List String) : List String :=
  (l.foldl setAdd []).foldr insertStrAsc []

/-- The data of one source file as the Python tree walk sees it: detection
inputs plus the syntax-tree facts consumed by `_extract_python`.  Non-Python
extractors decide no claim and their walks are abstracted by `otherResult`. -/
structure SourceFile where
  suffix : String
  readable : Bool
  pyStrings : List (String × Nat)
  pyImports : List String
  pyFromImports : List (String × List String)
  pyDbCalls : List (String × Nat)
  pyClasses : List String
  otherResult : List (String × RVal)

/-- `_extract_python`'s result dict. -/
def extractPython (f : SourceFile) : List (String × RVal) :=
  [("language", .str "python"),
   ("imports", .impDict (sortedDedup f.pyImports) f.pyFromImports),
   ("sql_queries", .queries (pyStringNodeScan f.pyStrings)),
   ("db_calls", .calls f.pyDbCalls),
   ("classes", .strs f.pyClasses)]

/-- `extract_dependencies`: language detection, parser lookup and the file
read each fall back to `_empty_result`; a parsed file is dispatched to its
per-language extractor. -/
def extract_dependencies (f : SourceFile) : List (String × RVal) :=
  match detectLanguage f.suffix with
  | none => emptyResult "unknown"
  | some lang =>
    if lang ∉ loadedParsers then emptyResult lang
    else if ¬ f.readable then emptyResult lang
    else if lang = "python" then extractPython f
    else f.otherResult

/-! ## Concrete inputs used by counterexamples and witnesses -/

/-- An empty repository inventory. -/
def repoEmpty : RepoData := { files := [] }

/-- The foreign-key dictionary `{'table': 'users', 'column': 'id'}`. -/
def fkUsers : FKey := { table := some "users", column := some "id" }

/-- A column `user_id` declaring a foreign key to `users.id`. -/
def colUserId : ColumnInfo := { name := "user_id", foreign_key := some fkUsers }

/-- An `orders` table whose `user_id` column points at `users`. -/
def tbOrders : TableInfo :=
  { name := "orders",
    columns := [{ name := "id", foreign_key := none }, colUserId],
    indexes := [] }

/-- A schema whose `orders.user_id` declares a foreign key to `users`,
while no table named `users` is in the snapshot (a partial schema). -/
def dbDangling : DbData := { tables := [tbOrders] }

/-- A repository with one `.py` file and one non-Python file. -/
def repoMixed : RepoData :=
  { files :=
      [{ path := "a.py", extension := ".py", lines := 3, imports := ["b"],
         sql_queries := [{ query := "SELECT * FROM users", table := some "users",
                           qtype := some "SELECT", line := some 10 }] },
       { path := "b.py", extension := ".py", lines := 1, imports := [], sql_queries := [] },
       { path := "c.java", extension := ".java", lines := 9, imports := ["b"],
         sql_queries := [{ query := "SELECT * FROM users", table := some "users",
                           qtype := some "SELECT", line := some 2 }] }] }

/-- A schema with a single `users` table and no foreign keys. -/
def dbUsers : DbData :=
  { tables := [{ name := "users",
                 columns := [{ name := "id", foreign_key := none }],
                 indexes := [] }] }

/-- A bare three-node path `a → b → c` (the middle node is a SPOF). -/
def gPath3 : Graph :=
  { nodes := [{ id := "a", attrs := none }, { id := "b", attrs := none },
              { id := "c", attrs := none }],
    edges := [{ src := "a", tgt := "b", type_ := "x", meta := .importsMeta "i" },
              { src := "b", tgt := "c", type_ := "x", meta := .importsMeta "i" }] }

/-- The SPOF record `_detect_spofs` emits for node `b` of `gPath3`. -/
def spofB : Spof :=
  { node_id := "b", node_type := none, node_name := none,
    betweenness_centrality := 1/2, dependencies_count := 2, risk_level := "high" }

/-- A two-node one-edge acyclic graph. -/
def gTwo : Graph :=
  { nodes := [{ id := "a", attrs := none }, { id := "b", attrs := none }],
    edges := [{ src := "a", tgt := "b", type_ := "x", meta := .importsMeta "i" }] }

/-- A rank function witnessing that `gTwo` is acyclic. -/
def rankTwo (s : String) : Nat := if s = "a" then 0 else 1

/-- A Python source file whose read fails. -/
def fileUnreadablePy : SourceFile :=
  { suffix := ".py", readable := false, pyStrings := [], pyImports := [],
    pyFromImports := [], pyDbCalls := [], pyClasses := [], otherResult := [] }

/-- A directed walk: consecutive vertices are joined by edges. -/
def IsWalk (g : Graph) (l : List String) : Prop := List.Chain' (EdgeP g) l

/-- A closed directed walk: at least one edge, and the walk returns to its
starting vertex. -/
def IsClosedWalk (g : Graph) (l : List String) : Prop :=
  2 ≤ l.length ∧ IsWalk g l ∧ l.head? = l.getLast?

/-- A graph is acyclic when it has no closed walk. -/
def Acyclic (g : Graph) : Prop := ∀ l : List String, ¬ IsClosedWalk g l

/-- An edge of the given `(source, target, type)` triple is stored. -/
def PairHasType (g : Graph) (s t ty : String) : Prop :=
  ∃ e ∈ g.edges, e.src = s ∧ e.tgt = t ∧ e.type_ = ty

/-- The relationship kind `build_topology` writes on an ordered pair is a
function of the two id namespaces: `table:` sources get `references`,
`module:` sources get `uses` on `table:` targets and `imports` otherwise. -/
def kindOfPair (s t : String) : String :=
  if "table:".data.isPrefixOf s.data then "references"
  else if "table:".data.isPrefixOf t.data then "uses"
  else "imports"

/-- The non-increasing-centrality order on SPOF records. -/
def SpofGE (a b : Spof) : Prop := b.betweenness_centrality ≤ a.betweenness_centrality

/-- At most one stored edge per ordered `(src, tgt)` pair. -/
def PairUnique (g : Graph) : Prop :=
  List.Pairwise (fun e1 e2 : GEdge => ¬(e1.src = e2.src ∧ e1.tgt = e2.tgt)) g.edges

/-- Every stored edge's kind agrees with the kind its id namespaces fix. -/
def KindProv (g : Graph) : Prop := ∀ e ∈ g.edges, e.type_ = kindOfPair e.src e.tgt

/-- The node was deliberately created from a `.py` repository file record. -/
def ModuleNodeProv (repo : RepoData) (nd : GNode) : Prop :=
  ∃ f ∈ repo.files, f.extension = ".py" ∧ nd.id = moduleNodeId f.path ∧
    nd.attrs = some { type_ := "module", name := f.path, meta := .moduleMeta f.lines "Python" }

/-- The node was deliberately created from a schema table record. -/
def TableNodeProv (db : DbData) (nd : GNode) : Prop :=
  ∃ t ∈ db.tables, nd.id = tableNodeId t.name ∧
    nd.attrs = some { type_ := "table", name := t.name,
                      meta := .tableMeta t.columns.length t.indexes.length }

/-- Both endpoints of every stored edge are present as nodes. -/
def EdgeEndpointsOk (g : Graph) : Prop :=
  ∀ e ∈ g.edges, hasNode g e.src = true ∧ hasNode g e.tgt = true

/-- Every `.py` file record's module node is present. -/
def HasAllPyModules (repo : RepoData) (g : Graph) : Prop :=
  ∀ f ∈ repo.files, f.extension = ".py" → hasNode g (moduleNodeId f.path) = true

/-- The repository restricted to its `.py` file records. -/
def filterPy (repo : RepoData) : RepoData :=
  { files := repo.files.filter (fun f => decide (f.extension = ".py")) }

/-- Every foreign key in the schema names a table of the schema (or is
empty): the hypothesis under which no phantom node can arise. -/
def noDanglingFkB (db : DbData) : Bool :=
  db.tables.all (fun t => t.columns.all (fun c =>
    match c.foreign_key with
    | none => true
    | some fk =>
      match fk.table with
      | none => true
      | some ft => decide (ft = "") || decide (ft ∈ db.tables.map (fun tb => tb.name))))

/-- Rendering of the spec's "whole word": an occurrence of `kw` at position
`i` of `u` flanked on neither side by a word character. -/
def wholeWordAt (kw u : List Char) (i : Nat) : Bool :=
  decide ((u.drop i).take kw.length = kw)
  && (match (u.take i).getLast? with
      | none => true
      | some c => !isWordChar c)
  && (match ((u.drop i).drop kw.length).head? with
      | none => true
      | some c => !isWordChar c)

/-- `kw` occurs in `u` as a whole word at some position. -/
def wholeWordB (kw u : List Char) : Bool :=
  (List.range (u.length + 1)).any (fun i => wholeWordAt kw u i)

/-- Some recognized SQL keyword occurs in the upper-cased text as a whole
word — the detection predicate the spec describes. -/
def wholeWordAnySqlKw (text : String) : Bool :=
  sqlKeywords.any (fun kw => wholeWordB kw.data (upperChars text))

/-! ## Helper lemmas: folds and strings -/

theorem foldl_inv {α β : Type} (P : α → Prop) (step : α → β → α) (l : List β) (b : α)
    (h0 : P b) (hstep : ∀ a x, x ∈ l → P a → P (step a x)) : P (l.foldl step b) := by
  induction l generalizing b with
  | nil => exact h0
  | cons x xs ih =>
    exact ih (step b x) (hstep b x (List.mem_cons_self x xs) h0)
      (fun a y hy ha => hstep a y (List.mem_cons_of_mem x hy) ha)

theorem foldl_filter_id {α β : Type} (p : β → Bool) (step : α → β → α) (l : List β) (b : α)
    (hid : ∀ a x, x ∈ l → p x = false → step a x = a) :
    (l.filter p).foldl step b = l.foldl step b := by
  induction l generalizing b with
  | nil => rfl
  | cons x xs ih =>
    by_cases hx : p x = true
    · rw [List.filter_cons_of_pos hx]
      exact ih (step b x) (fun a y hy hyp => hid a y (List.mem_cons_of_mem x hy) hyp)
    · rw [List.filter_cons_of_neg (by simpa using hx), List.foldl_cons,
        hid b x (List.mem_cons_self x xs) (by simpa using hx)]
      exact ih b (fun a y hy hyp => hid a y (List.mem_cons_of_mem x hy) hyp)

theorem string_of_data_eq {a b : String} (h : a.data = b.data) : a = b := by
  cases a; cases b; exact congrArg String.mk h

theorem append_left_inj {p a b : String} (h : p ++ a = p ++ b) : a = b := by
  have h2 := congrArg String.data h
  rw [String.data_append, String.data_append] at h2
  exact string_of_data_eq (List.append_cancel_left h2)

theorem moduleNodeId_ne_tableNodeId (x y : String) : moduleNodeId x ≠ tableNodeId y := by
  intro h
  have h2 : (moduleNodeId x).data.take 1 = (tableNodeId y).data.take 1 := by rw [h]
  rw [moduleNodeId, tableNodeId, String.data_append, String.data_append,
    List.take_append_of_le_length (by decide), List.take_append_of_le_length (by decide)] at h2
  exact absurd h2 (by decide)

theorem tableNodeId_inj {a b : String} (h : tableNodeId a = tableNodeId b) : a = b :=
  append_left_inj h

theorem moduleNodeId_inj {a b : String} (h : moduleNodeId a = moduleNodeId b) : a = b :=
  append_left_inj h

theorem kindOfPair_table_src (x t : String) : kindOfPair (tableNodeId x) t = "references" := by
  rw [kindOfPair, if_pos]
  rw [tableNodeId, String.data_append]
  exact List.isPrefixOf_iff_prefix.mpr (List.prefix_append _ _)

theorem not_table_isPrefixOf_module (x : String) :
    "table:".data.isPrefixOf (moduleNodeId x).data = false := by
  rw [moduleNodeId, String.data_append]
  by_contra hc
  have hp : "table:".data <+: "module:".data ++ x.data :=
    List.isPrefixOf_iff_prefix.mp (Bool.not_eq_false _ ▸ hc)
  obtain ⟨rest, hrest⟩ := hp
  have h1 := congrArg (List.take 1) hrest
  have ha : ("table:".data ++ rest).take 1 = "table:".data.take 1 :=
    List.take_append_of_le_length (by decide)
  have hb : ("module:".data ++ x.data).take 1 = "module:".data.take 1 :=
    List.take_append_of_le_length (by decide)
  rw [ha, hb] at h1
  exact absurd h1 (by decide)

theorem kindOfPair_module_table (x t : String) :
    kindOfPair (moduleNodeId x) (tableNodeId t) = "uses" := by
  rw [kindOfPair, if_neg (by rw [Bool.not_eq_true, not_table_isPrefixOf_module]), if_pos]
  rw [tableNodeId, String.data_append]
  exact List.isPrefixOf_iff_prefix.mpr (List.prefix_append _ _)

theorem kindOfPair_module_module (x y : String) :
    kindOfPair (moduleNodeId x) (moduleNodeId y) = "imports" := by
  rw [kindOfPair, if_neg (by rw [Bool.not_eq_true, not_table_isPrefixOf_module]),
    if_neg (by rw [Bool.not_eq_true, not_table_isPrefixOf_module])]

/-! ## Helper lemmas: graph operations -/

theorem hasNode_iff {g : Graph} {i : String} :
    hasNode g i = true ↔ ∃ nd ∈ g.nodes, nd.id = i := by
  simp [hasNode, List.any_eq_true]

theorem addNode_edges (g : Graph) (i : String) (info : NodeInfo) :
    (addNode g i info).edges = g.edges := by
  rw [addNode]; split <;> rfl

theorem ensureNode_edges (g : Graph) (i : String) :
    (ensureNode g i).edges = g.edges := by
  rw [ensureNode]; split <;> rfl

theorem mem_addNode_nodes {g : Graph} {i : String} {info : NodeInfo} {nd : GNode}
    (h : nd ∈ (addNode g i info).nodes) :
    nd = { id := i, attrs := some info } ∨ (nd ∈ g.nodes ∧ nd.id ≠ i) := by
  rw [addNode] at h
  split at h
  · rename_i hn
    obtain ⟨m, hm, hmap⟩ := List.mem_map.mp h
    by_cases hid : m.id = i
    · left; rw [← hmap, if_pos hid]
    · right; rw [← hmap, if_neg hid]; exact ⟨hm, hid⟩
  · rename_i hn
    rcases List.mem_append.mp h with hmem | hnew
    · right
      refine ⟨hmem, ?_⟩
      intro hid
      exact absurd (hasNode_iff.mpr ⟨nd, hmem, hid⟩) (by simpa using hn)
    · left; simpa using hnew

theorem mem_ensureNode_nodes {g : Graph} {i : String} {nd : GNode}
    (h : nd ∈ (ensureNode g i).nodes) :
    nd = { id := i, attrs := none } ∨ nd ∈ g.nodes := by
  rw [ensureNode] at h
  split at h
  · right; exact h
  · rcases List.mem_append.mp h with hm | hnew
    · right; exact hm
    · left; simpa using hnew

theorem ensureNode_of_hasNode {g : Graph} {i : String} (h : hasNode g i = true) :
    ensureNode g i = g := by
  rw [ensureNode, if_pos h]

theorem hasNode_addNode_self (g : Graph) (i : String) (info : NodeInfo) :
    hasNode (addNode g i info) i = true := by
  rw [addNode]
  split
  · rename_i hn
    obtain ⟨nd, hm, hid⟩ := hasNode_iff.mp hn
    exact hasNode_iff.mpr ⟨{ id := i, attrs := some info },
      List.mem_map.mpr ⟨nd, hm, by rw [if_pos hid]⟩, rfl⟩
  · exact hasNode_iff.mpr ⟨{ id := i, attrs := some info },
      List.mem_append.mpr (Or.inr (by simp)), rfl⟩

theorem hasNode_addNode_mono {g : Graph} {j : String} (i : String) (info : NodeInfo)
    (h : hasNode g j = true) : hasNode (addNode g i info) j = true := by
  obtain ⟨nd, hm, hid⟩ := hasNode_iff.mp h
  rw [addNode]
  split
  · by_cases hij : nd.id = i
    · exact hasNode_iff.mpr ⟨{ id := i, attrs := some info },
        List.mem_map.mpr ⟨nd, hm, by rw [if_pos hij]⟩, by rw [← hid, hij]⟩
    · exact hasNode_iff.mpr ⟨nd, List.mem_map.mpr ⟨nd, hm, by rw [if_neg hij]⟩, hid⟩
  · exact hasNode_iff.mpr ⟨nd, List.mem_append.mpr (Or.inl hm), hid⟩

theorem hasNode_ensureNode_self (g : Graph) (i : String) :
    hasNode (ensureNode g i) i = true := by
  rw [ensureNode]
  split
  · assumption
  · exact hasNode_iff.mpr ⟨{ id := i, attrs := none },
      List.mem_append.mpr (Or.inr (by simp)), rfl⟩

theorem hasNode_ensureNode_mono {g : Graph} {j : String} (i : String)
    (h : hasNode g j = true) : hasNode (ensureNode g i) j = true := by
  rw [ensureNode]
  split
  · exact h
  · obtain ⟨nd, hm, hid⟩ := hasNode_iff.mp h
    exact hasNode_iff.mpr ⟨nd, List.mem_append.mpr (Or.inl hm), hid⟩

theorem updateEdges_nodes (g : Graph) (s t ty : String) (m : EdgeMeta) :
    (updateEdges g s t ty m).nodes = g.nodes := by
  rw [updateEdges]; split <;> rfl

theorem mem_updateEdges_edges {g : Graph} {s t ty : String} {m : EdgeMeta} {e : GEdge}
    (h : e ∈ (updateEdges g s t ty m).edges) :
    e = { src := s, tgt := t, type_ := ty, meta := m } ∨ e ∈ g.edges := by
  rw [updateEdges] at h
  split at h
  · obtain ⟨e0, he0, hmap⟩ := List.mem_map.mp h
    by_cases hp : e0.src = s ∧ e0.tgt = t
    · left; rw [← hmap, if_pos hp]
    · right; rw [← hmap, if_neg hp]; exact he0
  · rcases List.mem_append.mp h with hm | hnew
    · right; exact hm
    · left; simpa using hnew

theorem addEdge_nodes_of_hasNode {g : Graph} {s t : String} (ty : String) (m : EdgeMeta)
    (hs : hasNode g s = true) (ht : hasNode g t = true) :
    (addEdge g s t ty m).nodes = g.nodes := by
  rw [addEdge, updateEdges_nodes, ensureNode_of_hasNode hs, ensureNode_of_hasNode ht]

theorem mem_addEdge_nodes {g : Graph} {s t ty : String} {m : EdgeMeta} {nd : GNode}
    (h : nd ∈ (addEdge g s t ty m).nodes) :
    nd ∈ g.nodes ∨ nd = { id := s, attrs := none } ∨ nd = { id := t, attrs := none } := by
  rw [addEdge, updateEdges_nodes] at h
  rcases mem_ensureNode_nodes h with ht | hs2
  · right; right; exact ht
  · rcases mem_ensureNode_nodes hs2 with hs3 | hg
    · right; left; exact hs3
    · left; exact hg

theorem mem_addEdge_nodes_src {g : Graph} {s t ty : String} {m : EdgeMeta} {nd : GNode}
    (hs : hasNode g s = true) (h : nd ∈ (addEdge g s t ty m).nodes) :
    nd ∈ g.nodes ∨ nd = { id := t, attrs := none } := by
  rw [addEdge, updateEdges_nodes, ensureNode_of_hasNode hs] at h
  rcases mem_ensureNode_nodes h with ht | hg
  · right; exact ht
  · left; exact hg

theorem hasNode_addEdge_mono {g : Graph} {j : String} (s t ty : String) (m : EdgeMeta)
    (h : hasNode g j = true) : hasNode (addEdge g s t ty m) j = true := by
  rw [addEdge]
  rw [show hasNode (updateEdges (ensureNode (ensureNode g s) t) s t ty m) j
      = hasNode (ensureNode (ensureNode g s) t) j from by rw [hasNode, updateEdges_nodes]; rfl]
  exact hasNode_ensureNode_mono t (hasNode_ensureNode_mono s h)

theorem hasNode_addEdge_src (g : Graph) (s t ty : String) (m : EdgeMeta) :
    hasNode (addEdge g s t ty m) s = true := by
  rw [addEdge]
  rw [show hasNode (updateEdges (ensureNode (ensureNode g s) t) s t ty m) s
      = hasNode (ensureNode (ensureNode g s) t) s from by rw [hasNode, updateEdges_nodes]; rfl]
  exact hasNode_ensureNode_mono t (hasNode_ensureNode_self g s)

theorem hasNode_addEdge_tgt (g : Graph) (s t ty : String) (m : EdgeMeta) :
    hasNode (addEdge g s t ty m) t = true := by
  rw [addEdge]
  rw [show hasNode (updateEdges (ensureNode (ensureNode g s) t) s t ty m) t
      = hasNode (ensureNode (ensureNode g s) t) t from by rw [hasNode, updateEdges_nodes]; rfl]
  exact hasNode_ensureNode_self _ t

theorem mem_addEdge_edges {g : Graph} {s t ty : String} {m : EdgeMeta} {e : GEdge}
    (h : e ∈ (addEdge g s t ty m).edges) :
    e = { src := s, tgt := t, type_ := ty, meta := m } ∨ e ∈ g.edges := by
  rw [addEdge] at h
  rcases mem_updateEdges_edges h with hnew | hold
  · left; exact hnew
  · right; rw [ensureNode_edges, ensureNode_edges] at hold; exact hold

theorem pairHasType_updateEdges_self (g : Graph) (s t ty : String) (m : EdgeMeta) :
    PairHasType (updateEdges g s t ty m) s t ty := by
  rw [updateEdges]
  split
  · rename_i he
    obtain ⟨e0, he0, hp⟩ := List.any_eq_true.mp he
    refine ⟨{ src := s, tgt := t, type_ := ty, meta := m }, ?_, rfl, rfl, rfl⟩
    exact List.mem_map.mpr ⟨e0, he0, by rw [if_pos (of_decide_eq_true hp)]⟩
  · exact ⟨{ src := s, tgt := t, type_ := ty, meta := m },
      List.mem_append.mpr (Or.inr (by simp)), rfl, rfl, rfl⟩

theorem pairHasType_addEdge_self (g : Graph) (s t ty : String) (m : EdgeMeta) :
    PairHasType (addEdge g s t ty m) s t ty :=
  pairHasType_updateEdges_self _ s t ty m

theorem pairHasType_addEdge {g : Graph} {s0 t0 ty0 : String} (s t ty : String) (m : EdgeMeta)
    (h : PairHasType g s0 t0 ty0) (hty : s = s0 ∧ t = t0 → ty = ty0) :
    PairHasType (addEdge g s t ty m) s0 t0 ty0 := by
  obtain ⟨e, he, hs, ht, hy⟩ := h
  by_cases hp : s = s0 ∧ t = t0
  · rw [hp.1, hp.2] at hty ⊢
    rw [hty ⟨rfl, rfl⟩]
    exact pairHasType_addEdge_self g s0 t0 ty0 m
  · rw [addEdge, updateEdges]
    split
    · refine ⟨e, ?_, hs, ht, hy⟩
      refine List.mem_map.mpr ⟨e, by rw [ensureNode_edges, ensureNode_edges]; exact he, ?_⟩
      rw [if_neg]
      intro hc
      exact hp ⟨by rw [← hc.1, hs], by rw [← hc.2, ht]⟩
    · exact ⟨e, List.mem_append.mpr
        (Or.inl (by rw [ensureNode_edges, ensureNode_edges]; exact he)), hs, ht, hy⟩

theorem pairHasType_addNode {g : Graph} {s0 t0 ty0 : String} (i : String) (info : NodeInfo)
    (h : PairHasType g s0 t0 ty0) : PairHasType (addNode g i info) s0 t0 ty0 := by
  obtain ⟨e, he, hrest⟩ := h
  exact ⟨e, by rw [addNode_edges]; exact he, hrest⟩

/-! ## Phase lemmas for `references` edges (claim C1) -/

theorem pairHasType_tableFkStep {g : Graph} {s0 t0 : String} (tid : String) (c : ColumnInfo)
    (h : PairHasType g s0 t0 "references") :
    PairHasType (tableFkStep tid g c) s0 t0 "references" := by
  rw [tableFkStep]
  split
  · exact h
  · split
    · exact h
    · split
      · exact h
      · exact pairHasType_addEdge _ _ _ _ h (fun _ => rfl)

theorem pairHasType_tableStep {acc : Graph × List String} {s0 t0 : String} (t : TableInfo)
    (h : PairHasType acc.1 s0 t0 "references") :
    PairHasType (tableStep acc t).1 s0 t0 "references" := by
  simp only [tableStep]
  exact foldl_inv (fun g => PairHasType g s0 t0 "references") _ _ _
    (pairHasType_addNode _ _ h)
    (fun g c _ hg => pairHasType_tableFkStep _ c hg)

theorem pairHasType_tableStep_self {t : TableInfo} {c : ColumnInfo} {fk : FKey} {ft : String}
    (hc : c ∈ t.columns) (hfk : c.foreign_key = some fk) (hft : fk.table = some ft)
    (hne : ft ≠ "") (acc : Graph × List String) :
    PairHasType (tableStep acc t).1 (tableNodeId t.name) (tableNodeId ft) "references" := by
  simp only [tableStep]
  obtain ⟨m1, m2, hcols⟩ := List.append_of_mem hc
  rw [hcols, List.foldl_append, List.foldl_cons]
  refine foldl_inv (fun g => PairHasType g (tableNodeId t.name) (tableNodeId ft) "references")
    _ _ _ ?_ (fun g c' _ hg => pairHasType_tableFkStep _ c' hg)
  simp only [tableFkStep, hfk, hft]
  rw [if_neg hne]
  exact pairHasType_addEdge_self _ _ _ _ _

theorem pairHasType_extract_tables {db : DbData} {tb : TableInfo} {c : ColumnInfo}
    {fk : FKey} {ft : String} (htb : tb ∈ db.tables) (hc : c ∈ tb.columns)
    (hfk : c.foreign_key = some fk) (hft : fk.table = some ft) (hne : ft ≠ "") (g0 : Graph) :
    PairHasType (extract_tables db g0).1 (tableNodeId tb.name) (tableNodeId ft) "references" := by
  rw [extract_tables]
  obtain ⟨l1, l2, hl⟩ := List.append_of_mem htb
  rw [hl, List.foldl_append, List.foldl_cons]
  exact foldl_inv
    (fun acc : Graph × List String =>
      PairHasType acc.1 (tableNodeId tb.name) (tableNodeId ft) "references") _ _ _
    (pairHasType_tableStep_self hc hfk hft hne _)
    (fun a x _ ha => pairHasType_tableStep x ha)

theorem pairHasType_queryStep {g : Graph} {x t0 ty0 : String} (p : String) (q : SqlQuery)
    (h : PairHasType g (tableNodeId x) t0 ty0) :
    PairHasType (queryStep (moduleNodeId p) g q) (tableNodeId x) t0 ty0 := by
  rw [queryStep]
  split
  · exact h
  · split
    · exact h
    · split
      · exact pairHasType_addEdge _ _ _ _ h
          (fun hc => absurd hc.1 (moduleNodeId_ne_tableNodeId p x))
      · exact h

theorem pairHasType_analyze_code_db {g : Graph} {x t0 ty0 : String} (repo : RepoData)
    (h : PairHasType g (tableNodeId x) t0 ty0) :
    PairHasType (analyze_code_db_dependencies repo g) (tableNodeId x) t0 ty0 := by
  rw [analyze_code_db_dependencies]
  refine foldl_inv (fun g => PairHasType g (tableNodeId x) t0 ty0) _ _ _ h ?_
  intro g f _ hg
  split
  · split
    · exact foldl_inv (fun g => PairHasType g (tableNodeId x) t0 ty0) _ _ _ hg
        (fun g q _ hq => pairHasType_queryStep f.path q hq)
    · exact hg
  · exact hg

theorem pairHasType_importStep {g : Graph} {x t0 ty0 : String}
    (mmap : List (String × String)) (p imp : String)
    (h : PairHasType g (tableNodeId x) t0 ty0) :
    PairHasType (importStep mmap (moduleNodeId p) g imp) (tableNodeId x) t0 ty0 := by
  rw [importStep]
  split
  · exact h
  · split
    · exact pairHasType_addEdge _ _ _ _ h
        (fun hc => absurd hc.1 (moduleNodeId_ne_tableNodeId p x))
    · exact h

theorem pairHasType_analyze_module_deps {g : Graph} {x t0 ty0 : String} (repo : RepoData)
    (h : PairHasType g (tableNodeId x) t0 ty0) :
    PairHasType (analyze_module_dependencies repo g) (tableNodeId x) t0 ty0 := by
  rw [analyze_module_dependencies]
  refine foldl_inv (fun g => PairHasType g (tableNodeId x) t0 ty0) _ _ _ h ?_
  intro g f _ hg
  split
  · exact foldl_inv (fun g => PairHasType g (tableNodeId x) t0 ty0) _ _ _ hg
      (fun g imp _ hi => pairHasType_importStep _ f.path imp hi)
  · exact hg

theorem build_topology_edges (repo : RepoData) (db : DbData) :
    (build_topology repo db).data.edges = serializeEdges (buildGraph repo db).1 := rfl

theorem buildGraph_fst (repo : RepoData) (db : DbData) :
    (buildGraph repo db).1 =
      analyze_module_dependencies repo
        (analyze_code_db_dependencies repo
          (extract_tables db (extract_modules repo { nodes := [], edges := [] }).1).1) := rfl

/-! ## Claim C1 -/

/-- C1, counterexample: in the topology built from an empty repository and a
schema whose only table `orders` declares a foreign key to the absent table
`users`, the serialized edge list *does* contain the `References` edge
`table:orders → table:users`, although no table named `users` is in the
snapshot — refuting the claim that no such edge exists. -/
theorem C1_fk_edge_to_absent_table_added :
    ({ source := "table:orders", target := "table:users", type_ := "references",
       meta := .refMeta "user_id" } : SerEdge) ∈ (build_topology repoEmpty dbDangling).data.edges
    ∧ "users" ∉ dbDangling.tables.map (fun t => t.name) := by
  exact ⟨by decide, by decide⟩

/-- C1 (amended): for every schema table `tb` declaring a foreign-key column
with a non-empty referenced table name `ft`, `build_topology` adds the
`References` edge `table:tb → table:ft` unconditionally — whether or not a
table named `ft` is in the schema snapshot (an absent target is implicitly
created as an attribute-less node by the edge write). -/
theorem C1_references_edge_unconditional
    (repo : RepoData) (db : DbData) (tb : TableInfo) (c : ColumnInfo) (fk : FKey) (ft : String)
    (htb : tb ∈ db.tables) (hc : c ∈ tb.columns) (hfk : c.foreign_key = some fk)
    (hft : fk.table = some ft) (hne : ft ≠ "") :
    ∃ e ∈ (build_topology repo db).data.edges,
      e.source = tableNodeId tb.name ∧ e.target = tableNodeId ft ∧ e.type_ = "references" := by
  have h1 := pairHasType_extract_tables htb hc hfk hft hne
    (extract_modules repo { nodes := [], edges := [] }).1
  have h2 := pairHasType_analyze_code_db repo h1
  have h3 := pairHasType_analyze_module_deps repo h2
  rw [build_topology_edges, buildGraph_fst]
  obtain ⟨e, he, hs, ht2, hy⟩ := h3
  exact ⟨{ source := e.src, target := e.tgt, type_ := e.type_, meta := e.meta },
    List.mem_map.mpr ⟨e, he, rfl⟩, hs, ht2, hy⟩

/-- C1, witness: the amended theorem applied to the concrete dangling-FK
schema. -/
theorem C1_witness :
    ∃ e ∈ (build_topology repoEmpty dbDangling).data.edges,
      e.source = tableNodeId "orders" ∧ e.target = tableNodeId "users" ∧ e.type_ = "references" :=
  C1_references_edge_unconditional repoEmpty dbDangling tbOrders colUserId fkUsers "users"
    (by decide) (by decide) (by decide) (by decide) (by decide)

/-! ## Claim C3 -/

theorem build_topology_statistics (repo : RepoData) (db : DbData) :
    (build_topology repo db).data.statistics =
      [("total_nodes", (serializeNodes (buildGraph repo db).1).length),
       ("total_edges", (serializeEdges (buildGraph repo db).1).length),
       ("modules", (buildGraph repo db).2.1.length),
       ("tables", (buildGraph repo db).2.2.length),
       ("spof_count", (detect_spofs (buildGraph repo db).1).length)] := rfl

theorem build_topology_metrics (repo : RepoData) (db : DbData) :
    (build_topology repo db).metrics = calculate_metrics (buildGraph repo db).1 := rfl

theorem build_topology_nodes (repo : RepoData) (db : DbData) :
    (build_topology repo db).data.nodes = serializeNodes (buildGraph repo db).1 := rfl

theorem build_topology_spofs (repo : RepoData) (db : DbData) :
    (build_topology repo db).data.spofs = detect_spofs (buildGraph repo db).1 := rfl

theorem build_topology_circular (repo : RepoData) (db : DbData) :
    (build_topology repo db).data.circular_dependencies =
      detect_circular_dependencies (buildGraph repo db).1 := rfl

/-- C3, counterexample: on a concrete run the serialized `statistics` object
carries none of the keys `node_count`, `edge_count`, `density`,
`max_degree_centrality`, `max_betweenness_centrality` — refuting the claim
that it carries them alongside the five counters. -/
theorem C3_statistics_missing_node_count :
    "node_count" ∉ (build_topology repoMixed dbUsers).data.statistics.map Prod.fst
    ∧ "density" ∉ (build_topology repoMixed dbUsers).data.statistics.map Prod.fst := by
  rw [build_topology_statistics]
  exact ⟨by decide, by decide⟩

/-- C3 (amended): the serialized `statistics` object carries exactly the
keys `total_nodes`, `total_edges`, `modules`, `tables`, `spof_count`; the
keys `node_count`, `edge_count`, `density` — and, for a non-empty graph,
`max_degree_centrality` and `max_betweenness_centrality` — are carried by
the separate `metrics` mapping of the artifact, not by `statistics`. -/
theorem C3_statistics_and_metrics_fields (repo : RepoData) (db : DbData) :
    (build_topology repo db).data.statistics.map Prod.fst =
      ["total_nodes", "total_edges", "modules", "tables", "spof_count"]
    ∧ (build_topology repo db).metrics.map Prod.fst =
      ["node_count", "edge_count", "density"] ++
        (if 0 < (buildGraph repo db).1.nodes.length then
          ["max_degree_centrality", "max_betweenness_centrality"] else []) := by
  constructor
  · rw [build_topology_statistics]
    rfl
  · rw [build_topology_metrics, calculate_metrics, List.map_append]
    congr 1
    split
    · rfl
    · rfl

/-! ## Claim C9 -/

/-- C9: on every graph, the `density` entry `_calculate_metrics` emits is
`edges/(nodes·(nodes−1))` and is `0` whenever the graph has fewer than two
nodes; in particular a two-node graph with one directed edge has density
`1/2`. -/
theorem C9_density_formula :
    (∀ g : Graph, dictFind? (calculate_metrics g) "density" =
      some (if g.nodes.length < 2 then 0
            else (g.edges.length : ℚ) / ((g.nodes.length : ℚ) * ((g.nodes.length : ℚ) - 1))))
    ∧ dictFind? (calculate_metrics gTwo) "density" = some (1/2) := by
  have hgen : ∀ g : Graph, dictFind? (calculate_metrics g) "density" =
      some (if g.nodes.length < 2 then 0
            else (g.edges.length : ℚ) / ((g.nodes.length : ℚ) * ((g.nodes.length : ℚ) - 1))) := by
    intro g
    have hfind : dictFind? (calculate_metrics g) "density" =
        some (if 0 < g.nodes.length then nxDensity g else 0) := by
      rw [calculate_metrics, dictFind?, List.find?_append]
      simp
    rw [hfind]
    congr 1
    rcases Nat.lt_or_ge g.nodes.length 2 with h2 | h2
    · rw [if_pos h2]
      rcases Nat.eq_zero_or_pos g.nodes.length with h0 | h0
      · rw [if_neg (by omega)]
      · rw [if_pos h0]
        simp only [nxDensity]
        rw [if_pos (Or.inr (by omega : g.nodes.length ≤ 1))]
    · rw [if_pos (show 0 < g.nodes.length by omega),
        if_neg (show ¬ g.nodes.length < 2 by omega)]
      simp only [nxDensity]
      by_cases hm : g.edges.length = 0
      · rw [if_pos (Or.inl hm), hm]
        norm_num
      · rw [if_neg (by push_neg; exact ⟨hm, by omega⟩)]
  refine ⟨hgen, ?_⟩
  rw [hgen gTwo]
  norm_num [gTwo]

/-! ## Claim C4 -/

/-- C4, counterexample: the literal `'selection'` contains `SELECT` only
inside a longer word, yet the Python string-node scan records it as a
candidate SQL statement — refuting the whole-word reading of detection. -/
theorem C4_substring_not_whole_word :
    (pyStringNodeScan [("'selection'", 3)]).length = 1
    ∧ sqlContains (stripQuotes "'selection'") = true
    ∧ wholeWordAnySqlKw (stripQuotes "'selection'") = false := by
  exact ⟨by decide, by decide, by decide⟩

/-- C4 (amended): a string-literal node is recorded as a candidate SQL
statement iff its stripped text's upper-casing contains one of the seven
keywords as a plain substring; every whole-word occurrence is therefore
recorded, but so is a keyword occurring inside a longer word. -/
theorem C4_detection_by_substring
    (sns : List (String × Nat)) (raw : String) (ln : Nat) (hmem : (raw, ln) ∈ sns) :
    ((∃ q ∈ pyStringNodeScan sns, q.query = stripQuotes raw ∧ q.line = some ln) ↔
      sqlContains (stripQuotes raw) = true)
    ∧ (wholeWordAnySqlKw (stripQuotes raw) = true → sqlContains (stripQuotes raw) = true) := by
  constructor
  · constructor
    · rintro ⟨q, hq, hquery, -⟩
      obtain ⟨p, -, hf⟩ := List.mem_filterMap.mp hq
      by_cases hdet : sqlContains (stripQuotes p.1) = true
      · simp only [hdet, if_true] at hf
        have hq2 : q.query = stripQuotes p.1 := by rw [← Option.some_inj.mp hf]
        rw [← hquery, hq2]
        exact hdet
      · simp only [if_neg hdet] at hf
        exact absurd hf (by simp)
    · intro hdet
      refine ⟨{ query := stripQuotes raw, line := some ln,
                qtype := getQueryType (stripQuotes raw),
                table := extractTableName (stripQuotes raw) },
        List.mem_filterMap.mpr ⟨(raw, ln), hmem, ?_⟩, rfl, rfl⟩
      simp only [hdet, if_true]
  · intro hww
    obtain ⟨kw, hkw, hwb⟩ := List.any_eq_true.mp hww
    obtain ⟨i, -, hat⟩ := List.any_eq_true.mp hwb
    have htake : ((upperChars (stripQuotes raw)).drop i).take kw.data.length = kw.data := by
      have h1 := (Bool.and_eq_true _ _).mp ((Bool.and_eq_true _ _).mp hat).1
      exact of_decide_eq_true h1.1
    refine List.any_eq_true.mpr ⟨kw, hkw, decide_eq_true ?_⟩
    refine ⟨(upperChars (stripQuotes raw)).take i,
      ((upperChars (stripQuotes raw)).drop i).drop kw.data.length, ?_⟩
    rw [List.append_assoc]
    nth_rewrite 1 [← htake]
    rw [List.take_append_drop, List.take_append_drop]

/-- C4, witness: a literal that contains `SELECT` as a whole word is
recorded, via the amended theorem applied at a concrete node. -/
theorem C4_witness :
    ∃ q ∈ pyStringNodeScan [("'SELECT * FROM users'", 7)],
      q.query = stripQuotes "'SELECT * FROM users'" ∧ q.line = some 7 :=
  (C4_detection_by_substring [("'SELECT * FROM users'", 7)] "'SELECT * FROM users'" 7
    (by decide)).1.mpr (by decide)

/-! ## Claim C5 -/

/-- C5, counterexample: a `.py` file whose read fails is converted into the
empty result whose keys are `language`, `imports`, `sql_queries`,
`db_calls` — there is no `error` field at all, refuting the claim that the
record "carries only an error field". -/
theorem C5_failure_record_has_no_error_field :
    (extract_dependencies fileUnreadablePy).map Prod.fst =
      ["language", "imports", "sql_queries", "db_calls"]
    ∧ "error" ∉ (extract_dependencies fileUnreadablePy).map Prod.fst := by
  exact ⟨by decide, by decide⟩

/-- C5 (amended): unsupported-language, missing-parser and read failures
are caught and converted into `_empty_result`, which carries the language
tag and empty `imports`/`sql_queries`/`db_calls` collections and no
`error` field — a failed file is indistinguishable from one with no
dependencies. -/
theorem C5_failures_yield_empty_result (f : SourceFile) :
    (detectLanguage f.suffix = none → extract_dependencies f = emptyResult "unknown")
    ∧ (∀ lang, detectLanguage f.suffix = some lang →
        (lang ∉ loadedParsers ∨ f.readable = false) →
          extract_dependencies f = emptyResult lang
          ∧ "error" ∉ (emptyResult lang).map Prod.fst) := by
  constructor
  · intro hnone
    rw [extract_dependencies, hnone]
  · intro lang hlang hfail
    have hkeys : "error" ∉ (emptyResult lang).map Prod.fst := by
      simp [emptyResult]
    refine ⟨?_, hkeys⟩
    rw [extract_dependencies, hlang]
    simp only []
    by_cases hp : lang ∈ loadedParsers
    · rw [if_neg (by simpa using hp)]
      have hr : f.readable = false := hfail.resolve_left (fun hc => hc hp)
      rw [if_pos (by simp [hr])]
    · rw [if_pos hp]

/-- C5, witness: the amended theorem applied to the concrete unreadable
`.py` file. -/
theorem C5_witness :
    extract_dependencies fileUnreadablePy = emptyResult "python"
    ∧ "error" ∉ (emptyResult "python").map Prod.fst :=
  (C5_failures_yield_empty_result fileUnreadablePy).2 "python" (by decide) (Or.inr (by decide))

/-! ## Claim C7 -/

theorem insertSpofDesc_perm (r : Spof) (l : List Spof) :
    List.Perm (insertSpofDesc r l) (r :: l) := by
  induction l with
  | nil => exact List.Perm.refl _
  | cons x xs ih =>
    rw [insertSpofDesc]
    split
    · exact ((ih.cons x).trans (List.Perm.swap r x xs))
    · exact List.Perm.refl _

theorem sortSpofsDesc_perm (l : List Spof) : List.Perm (sortSpofsDesc l) l := by
  induction l with
  | nil => exact List.Perm.refl _
  | cons x xs ih => exact (insertSpofDesc_perm x (sortSpofsDesc xs)).trans (ih.cons x)

theorem sorted_insertSpofDesc (r : Spof) (l : List Spof) (h : List.Sorted SpofGE l) :
    List.Sorted SpofGE (insertSpofDesc r l) := by
  induction l with
  | nil => simp [insertSpofDesc]
  | cons x xs ih =>
    rw [insertSpofDesc]
    rw [List.sorted_cons] at h
    split
    · rename_i hlt
      rw [List.sorted_cons]
      refine ⟨?_, ih h.2⟩
      intro b hb
      rcases List.mem_cons.mp ((insertSpofDesc_perm r xs).mem_iff.mp hb) with hbr | hbxs
      · rw [hbr]
        exact le_of_lt hlt
      · exact h.1 b hbxs
    · rename_i hge
      rw [List.sorted_cons]
      refine ⟨?_, List.sorted_cons.mpr h⟩
      intro b hb
      rcases List.mem_cons.mp hb with hbx | hbxs
      · rw [hbx]
        exact le_of_not_lt hge
      · exact le_trans (h.1 b hbxs) (le_of_not_lt hge)

theorem sorted_sortSpofsDesc (l : List Spof) : List.Sorted SpofGE (sortSpofsDesc l) := by
  induction l with
  | nil => simp [sortSpofsDesc]
  | cons x xs ih => exact sorted_insertSpofDesc x (sortSpofsDesc xs) ih

/-- C7: every SPOF record `_detect_spofs` emits has betweenness centrality
strictly above `0.1`, its risk level is `high` above `0.3` and `medium`
otherwise, and the emitted list is sorted non-increasingly by centrality. -/
theorem C7_spof_threshold_risk_sorted (g : Graph) :
    (∀ r ∈ detect_spofs g, (1 : ℚ)/10 < r.betweenness_centrality
      ∧ r.risk_level = (if (3 : ℚ)/10 < r.betweenness_centrality then "high" else "medium"))
    ∧ List.Sorted SpofGE (detect_spofs g) := by
  rw [detect_spofs]
  split
  · exact ⟨by simp, by simp⟩
  · constructor
    · intro r hr
      have hr2 := (sortSpofsDesc_perm _).subset hr
      obtain ⟨p, -, hf⟩ := List.mem_filterMap.mp hr2
      by_cases hgt : (1 : ℚ)/10 < p.2
      · rw [if_pos hgt] at hf
        rw [← Option.some_inj.mp hf]
        exact ⟨hgt, rfl⟩
      · rw [if_neg hgt] at hf
        exact absurd hf (by simp)
    · exact sorted_sortSpofsDesc _

/-- C7, witness: the theorem applied to the SPOF record of the middle node
of the concrete path graph `a → b → c` (centrality `1/2`, risk `high`). -/
theorem C7_witness :
    (1 : ℚ)/10 < spofB.betweenness_centrality
    ∧ spofB.risk_level =
        (if (3 : ℚ)/10 < spofB.betweenness_centrality then "high" else "medium") :=
  (C7_spof_threshold_risk_sorted gPath3).1 spofB (by
    have hev : detect_spofs gPath3 = [spofB] := by
      simp +decide [detect_spofs, betweennessList, nodeIds, gPath3, betweennessCentrality,
        rawBetweenness, pairDep, distB, countWalks, sortSpofsDesc, insertSpofDesc,
        nodeAttrs?, inDeg, outDeg, spofB, List.filter, List.foldl, List.find?, List.range,
        List.range.loop, List.filterMap]
      norm_num [List.foldr, insertSpofDesc]
    rw [hev]
    exact List.mem_singleton.mpr rfl)

/-! ## Claim C8 -/

theorem edgeB_iff {g : Graph} {a b : String} : edgeB g a b = true ↔ EdgeP g a b := by
  simp [edgeB, EdgeP, List.any_eq_true]

theorem chainB_chain' (g : Graph) : ∀ l : List String, chainB g l = true →
    List.Chain' (EdgeP g) l
  | [] => fun _ => List.chain'_nil
  | [a] => fun _ => List.chain'_singleton a
  | a :: b :: rest => fun h => by
    rw [chainB] at h
    obtain ⟨h1, h2⟩ := (Bool.and_eq_true _ _).mp h
    exact List.chain'_cons.mpr ⟨edgeB_iff.mp h1, chainB_chain' g (b :: rest) h2⟩

theorem chain'_append_singleton {R : String → String → Prop} :
    ∀ (l : List String) (a b : String), List.Chain' R (a :: l) → R (lastOf a l) b →
      List.Chain' R ((a :: l) ++ [b])
  | [], a, b => fun _ hr => List.chain'_cons.mpr ⟨hr, List.chain'_singleton b⟩
  | x :: xs, a, b => fun hch hr => by
    rw [List.chain'_cons] at hch
    exact List.chain'_cons.mpr ⟨hch.1, chain'_append_singleton xs x b hch.2 hr⟩

theorem lastOf_eq_getLast? : ∀ (l : List String) (a : String),
    (a :: l).getLast? = some (lastOf a l)
  | [], a => rfl
  | x :: xs, a => by
    rw [lastOf, ← lastOf_eq_getLast? xs x]
    exact List.getLast?_cons_cons

theorem rank_chain_le {g : Graph} {rank : String → Nat}
    (hrank : ∀ e ∈ g.edges, rank e.src < rank e.tgt) :
    ∀ (l : List String) (a : String), List.Chain' (EdgeP g) (a :: l) →
      rank a + l.length ≤ rank (lastOf a l)
  | [], a => fun _ => by simp [lastOf]
  | x :: xs, a => fun hch => by
    rw [List.chain'_cons] at hch
    obtain ⟨e, he, hs, ht⟩ := hch.1
    have h1 : rank a < rank x := by
      have := hrank e he
      rwa [hs, ht] at this
    have h2 := rank_chain_le hrank xs x hch.2
    rw [lastOf]
    simp only [List.length_cons]
    omega

theorem acyclic_of_rank (g : Graph) (rank : String → Nat)
    (hrank : ∀ e ∈ g.edges, rank e.src < rank e.tgt) : Acyclic g := by
  rintro l ⟨hlen, hwalk, hclose⟩
  match l with
  | [] => simp at hlen
  | a :: l' =>
    rw [List.head?_cons, lastOf_eq_getLast?] at hclose
    have ha : a = lastOf a l' := Option.some_inj.mp hclose
    have hle := rank_chain_le hrank l' a hwalk
    rw [← ha] at hle
    simp only [List.length_cons] at hlen
    omega

/-- C8: every cycle returned by `_detect_circular_dependencies` has length
at least 2 (self-loops are excluded by the length filter), and on an
acyclic graph the returned list is empty. -/
theorem C8_cycles_length_ge_two_and_acyclic_empty (g : Graph) :
    (∀ c ∈ detect_circular_dependencies g, 2 ≤ c.length)
    ∧ (Acyclic g → detect_circular_dependencies g = []) := by
  constructor
  · intro c hc
    have h2 := (List.mem_filter.mp hc).2
    have := of_decide_eq_true h2
    omega
  · intro hacy
    rw [detect_circular_dependencies]
    have hempty : simpleCyclesModel g = [] := by
      rw [simpleCyclesModel, List.filter_eq_nil_iff]
      intro c hc hpred
      obtain ⟨h1, -⟩ := (Bool.and_eq_true _ _).mp hpred
      match c with
      | [] => simp [isCycleSeqB] at h1
      | h :: t =>
        rw [isCycleSeqB] at h1
        obtain ⟨hch, hcl⟩ := (Bool.and_eq_true _ _).mp h1
        apply hacy ((h :: t) ++ [h])
        refine ⟨by simp, ?_, ?_⟩
        · exact chain'_append_singleton t h h (chainB_chain' g (h :: t) hch) (edgeB_iff.mp hcl)
        · rw [List.getLast?_concat]
          rfl
    rw [hempty]
    rfl

/-- C8, witness: the theorem applied to the concrete two-node acyclic
graph, its acyclicity discharged through a rank function. -/
theorem C8_witness : detect_circular_dependencies gTwo = [] :=
  (C8_cycles_length_ge_two_and_acyclic_empty gTwo).2
    (acyclic_of_rank gTwo rankTwo (by decide))

/-! ## Claim C6 -/

theorem pairUnique_updateEdges {g : Graph} (s t ty : String) (m : EdgeMeta)
    (h : PairUnique g) : PairUnique (updateEdges g s t ty m) := by
  rw [PairUnique, updateEdges]
  split
  · rw [List.pairwise_map]
    have fsrc : ∀ e : GEdge,
        ((if e.src = s ∧ e.tgt = t then { src := s, tgt := t, type_ := ty, meta := m } else e)
          : GEdge).src = e.src ∧
        ((if e.src = s ∧ e.tgt = t then { src := s, tgt := t, type_ := ty, meta := m } else e)
          : GEdge).tgt = e.tgt := by
      intro e
      split
      · rename_i he
        exact ⟨he.1.symm, he.2.symm⟩
      · exact ⟨rfl, rfl⟩
    refine h.imp ?_
    intro a b hab hc
    exact hab ⟨by rw [← (fsrc a).1, ← (fsrc b).1]; exact hc.1,
      by rw [← (fsrc a).2, ← (fsrc b).2]; exact hc.2⟩
  · rename_i hne
    rw [List.pairwise_append]
    refine ⟨h, List.pairwise_singleton _ _, ?_⟩
    intro a ha b hb
    rw [List.mem_singleton] at hb
    subst hb
    intro hc
    exact hne (List.any_eq_true.mpr ⟨a, ha, decide_eq_true ⟨hc.1, hc.2⟩⟩)

theorem pairUnique_addEdge {g : Graph} (s t ty : String) (m : EdgeMeta)
    (h : PairUnique g) : PairUnique (addEdge g s t ty m) := by
  rw [addEdge]
  apply pairUnique_updateEdges
  rw [PairUnique, ensureNode_edges, ensureNode_edges]
  exact h

theorem pairUnique_addNode {g : Graph} (i : String) (info : NodeInfo)
    (h : PairUnique g) : PairUnique (addNode g i info) := by
  rw [PairUnique, addNode_edges]
  exact h

theorem kindProv_updateEdges {g : Graph} {s t ty : String} (m : EdgeMeta)
    (h : KindProv g) (hk : ty = kindOfPair s t) : KindProv (updateEdges g s t ty m) := by
  intro e he
  rw [updateEdges] at he
  split at he
  · obtain ⟨e0, he0, hmap⟩ := List.mem_map.mp he
    by_cases hp : e0.src = s ∧ e0.tgt = t
    · rw [← hmap, if_pos hp]
      exact hk
    · rw [← hmap, if_neg hp]
      exact h e0 he0
  · rcases List.mem_append.mp he with hm | hnew
    · exact h e hm
    · rw [List.mem_singleton.mp hnew]
      exact hk

theorem kindProv_addEdge {g : Graph} {s t ty : String} (m : EdgeMeta)
    (h : KindProv g) (hk : ty = kindOfPair s t) : KindProv (addEdge g s t ty m) := by
  rw [addEdge]
  apply kindProv_updateEdges m _ hk
  intro e he
  rw [ensureNode_edges, ensureNode_edges] at he
  exact h e he

theorem kindProv_addNode {g : Graph} (i : String) (info : NodeInfo)
    (h : KindProv g) : KindProv (addNode g i info) := by
  intro e he
  rw [addNode_edges] at he
  exact h e he

theorem dictInsert_values (P : String → Prop) {m : List (String × String)} {k v : String}
    (h : ∀ kv ∈ m, P kv.2) (hv : P v) : ∀ kv ∈ dictInsert m k v, P kv.2 := by
  intro kv hkv
  rw [dictInsert] at hkv
  split at hkv
  · obtain ⟨kv0, hkv0, hmap⟩ := List.mem_map.mp hkv
    by_cases hp : kv0.1 = k
    · rw [← hmap, if_pos hp]
      exact hv
    · rw [← hmap, if_neg hp]
      exact h kv0 hkv0
  · rcases List.mem_append.mp hkv with hm | hnew
    · exact h kv hm
    · rw [List.mem_singleton.mp hnew]
      exact hv

theorem buildModuleMap_values (repo : RepoData) :
    ∀ kv ∈ buildModuleMap repo, ∃ p, kv.2 = moduleNodeId p := by
  rw [buildModuleMap]
  refine foldl_inv
    (fun m : List (String × String) => ∀ kv ∈ m, ∃ p, kv.2 = moduleNodeId p) _ _ _ (by simp) ?_
  intro m f _ hm
  split
  · exact dictInsert_values (fun v => ∃ p, v = moduleNodeId p) hm ⟨f.path, rfl⟩
  · exact hm

theorem dictFind?_values {α : Type} (P : α → Prop) {m : List (String × α)} {k : String} {v : α}
    (h : ∀ kv ∈ m, P kv.2) (hfind : dictFind? m k = some v) : P v := by
  rw [dictFind?] at hfind
  obtain ⟨kv, hkv, hmap⟩ := Option.map_eq_some'.mp hfind
  exact hmap ▸ h kv (List.mem_of_find?_eq_some hkv)

theorem puk_buildGraph (repo : RepoData) (db : DbData) :
    PairUnique (buildGraph repo db).1 ∧ KindProv (buildGraph repo db).1 := by
  rw [buildGraph_fst]
  have h0 : PairUnique { nodes := [], edges := [] } ∧ KindProv { nodes := [], edges := [] } := by
    constructor
    · exact List.Pairwise.nil
    · intro e he
      exact absurd he (List.not_mem_nil e)
  have h1 : PairUnique (extract_modules repo { nodes := [], edges := [] }).1
      ∧ KindProv (extract_modules repo { nodes := [], edges := [] }).1 := by
    rw [extract_modules]
    refine foldl_inv (fun acc : Graph × List String => PairUnique acc.1 ∧ KindProv acc.1)
      _ _ _ h0 ?_
    intro acc f _ ha
    split
    · exact ⟨pairUnique_addNode _ _ ha.1, kindProv_addNode _ _ ha.2⟩
    · exact ha
  have h2 : PairUnique (extract_tables db (extract_modules repo
        { nodes := [], edges := [] }).1).1
      ∧ KindProv (extract_tables db (extract_modules repo { nodes := [], edges := [] }).1).1 := by
    rw [extract_tables]
    refine foldl_inv (fun acc : Graph × List String => PairUnique acc.1 ∧ KindProv acc.1)
      _ _ _ h1 ?_
    intro acc t _ ha
    simp only [tableStep]
    refine foldl_inv (fun g => PairUnique g ∧ KindProv g) _ _ _
      ⟨pairUnique_addNode _ _ ha.1, kindProv_addNode _ _ ha.2⟩ ?_
    intro g c _ hg
    rw [tableFkStep]
    split
    · exact hg
    · split
      · exact hg
      · split
        · exact hg
        · exact ⟨pairUnique_addEdge _ _ _ _ hg.1,
            kindProv_addEdge _ hg.2 (kindOfPair_table_src _ _).symm⟩
  have h3 : PairUnique (analyze_code_db_dependencies repo (extract_tables db
        (extract_modules repo { nodes := [], edges := [] }).1).1)
      ∧ KindProv (analyze_code_db_dependencies repo (extract_tables db
        (extract_modules repo { nodes := [], edges := [] }).1).1) := by
    rw [analyze_code_db_dependencies]
    refine foldl_inv (fun g => PairUnique g ∧ KindProv g) _ _ _ h2 ?_
    intro g f _ hg
    split
    · split
      · refine foldl_inv (fun g => PairUnique g ∧ KindProv g) _ _ _ hg ?_
        intro g q _ hq
        rw [queryStep]
        split
        · exact hq
        · split
          · exact hq
          · split
            · exact ⟨pairUnique_addEdge _ _ _ _ hq.1,
                kindProv_addEdge _ hq.2 (kindOfPair_module_table _ _).symm⟩
            · exact hq
      · exact hg
    · exact hg
  rw [analyze_module_dependencies]
  refine foldl_inv (fun g => PairUnique g ∧ KindProv g) _ _ _ h3 ?_
  intro g f _ hg
  split
  · refine foldl_inv (fun g => PairUnique g ∧ KindProv g) _ _ _ hg ?_
    intro g imp _ hi
    rw [importStep]
    split
    · exact hi
    · rename_i tgt hfind
      obtain ⟨p, hp⟩ := dictFind?_values (fun v => ∃ p, v = moduleNodeId p)
        (buildModuleMap_values repo) hfind
      split
      · refine ⟨pairUnique_addEdge _ _ _ _ hi.1, kindProv_addEdge _ hi.2 ?_⟩
        rw [hp, kindOfPair_module_module]
      · exact hi
  · exact hg

/-- C6: the assembled graph is a simple digraph — the serialized edge list
holds at most one edge per ordered `(source, target)` pair — and the kind
stored on a pair is a function of the two endpoint namespaces
(`table:* → references`, `module:*→table:* → uses`, else `imports`).
Consequently two distinct relationship kinds never compete for one ordered
pair, and the first-written kind is the one that survives. -/
theorem C6_simple_graph_single_kind_per_pair (repo : RepoData) (db : DbData) :
    List.Pairwise (fun e1 e2 : SerEdge => ¬(e1.source = e2.source ∧ e1.target = e2.target))
      (build_topology repo db).data.edges
    ∧ ∀ e ∈ (build_topology repo db).data.edges, e.type_ = kindOfPair e.source e.target := by
  obtain ⟨hpu, hkp⟩ := puk_buildGraph repo db
  rw [build_topology_edges]
  constructor
  · rw [serializeEdges, List.pairwise_map]
    exact hpu.imp (fun {a b} hab hc => hab hc)
  · intro e he
    obtain ⟨e0, he0, hmap⟩ := List.mem_map.mp he
    rw [← hmap]
    exact hkp e0 he0

/-- C6, witness: a concrete `uses` edge of a built topology, whose stored
kind is the one its endpoint namespaces dictate. -/
theorem C6_witness :
    ({ source := "module:a.py", target := "table:users", type_ := "uses",
       meta := .usesMeta "SELECT" (some 10) } : SerEdge).type_ =
      kindOfPair "module:a.py" "table:users" :=
  (C6_simple_graph_single_kind_per_pair repoMixed dbUsers).2
    { source := "module:a.py", target := "table:users", type_ := "uses",
      meta := .usesMeta "SELECT" (some 10) } (by decide)

/-! ## Node-set monotonicity through the phases -/

theorem hasNode_tableFkStep_mono {g : Graph} {j : String} (tid : String) (c : ColumnInfo)
    (h : hasNode g j = true) : hasNode (tableFkStep tid g c) j = true := by
  rw [tableFkStep]
  split
  · exact h
  · split
    · exact h
    · split
      · exact h
      · exact hasNode_addEdge_mono _ _ _ _ h

theorem hasNode_tableStep_mono {acc : Graph × List String} {j : String} (t : TableInfo)
    (h : hasNode acc.1 j = true) : hasNode (tableStep acc t).1 j = true := by
  simp only [tableStep]
  exact foldl_inv (fun g => hasNode g j = true) _ _ _ (hasNode_addNode_mono _ _ h)
    (fun g c _ hg => hasNode_tableFkStep_mono _ c hg)

theorem hasNode_extract_tables_mono (db : DbData) {g : Graph} {j : String}
    (h : hasNode g j = true) : hasNode (extract_tables db g).1 j = true := by
  rw [extract_tables]
  exact foldl_inv (fun acc : Graph × List String => hasNode acc.1 j = true) _ _ _ h
    (fun a t _ ha => hasNode_tableStep_mono t ha)

theorem hasNode_queryStep_mono {g : Graph} {j : String} (mid : String) (q : SqlQuery)
    (h : hasNode g j = true) : hasNode (queryStep mid g q) j = true := by
  rw [queryStep]
  split
  · exact h
  · split
    · exact h
    · split
      · exact hasNode_addEdge_mono _ _ _ _ h
      · exact h

theorem hasNode_analyze_code_db_mono (repo : RepoData) {g : Graph} {j : String}
    (h : hasNode g j = true) : hasNode (analyze_code_db_dependencies repo g) j = true := by
  rw [analyze_code_db_dependencies]
  refine foldl_inv (fun g => hasNode g j = true) _ _ _ h ?_
  intro g f _ hg
  split
  · split
    · exact foldl_inv (fun g => hasNode g j = true) _ _ _ hg
        (fun g q _ hq => hasNode_queryStep_mono _ q hq)
    · exact hg
  · exact hg

theorem hasNode_importStep_mono {g : Graph} {j : String} (mmap : List (String × String))
    (mid imp : String) (h : hasNode g j = true) :
    hasNode (importStep mmap mid g imp) j = true := by
  rw [importStep]
  split
  · exact h
  · split
    · exact hasNode_addEdge_mono _ _ _ _ h
    · exact h

theorem hasNode_analyze_module_deps_mono (repo : RepoData) {g : Graph} {j : String}
    (h : hasNode g j = true) : hasNode (analyze_module_dependencies repo g) j = true := by
  rw [analyze_module_dependencies]
  refine foldl_inv (fun g => hasNode g j = true) _ _ _ h ?_
  intro g f _ hg
  split
  · exact foldl_inv (fun g => hasNode g j = true) _ _ _ hg
      (fun g imp _ hi => hasNode_importStep_mono _ _ imp hi)
  · exact hg

theorem hasNode_extract_modules_self (repo : RepoData) (g0 : Graph × List String) :
    ∀ f ∈ repo.files, f.extension = ".py" →
      hasNode (repo.files.foldl
        (fun acc f =>
          if f.extension = ".py" then
            (addNode acc.1 (moduleNodeId f.path)
              { type_ := "module", name := f.path, meta := .moduleMeta f.lines "Python" },
             setAdd acc.2 (moduleNodeId f.path))
          else acc) g0).1 (moduleNodeId f.path) = true := by
  intro f hf hext
  obtain ⟨l1, l2, hl⟩ := List.append_of_mem hf
  rw [hl, List.foldl_append, List.foldl_cons, if_pos hext]
  exact foldl_inv (fun acc : Graph × List String =>
      hasNode acc.1 (moduleNodeId f.path) = true) _ _ _ (hasNode_addNode_self _ _ _)
    (fun a x _ ha => by
      split
      · exact hasNode_addNode_mono _ _ ha
      · exact ha)

/-- Every `.py` file record has its module node present after phase 1. -/
theorem hasNode_extract_modules (repo : RepoData) (g0 : Graph) :
    ∀ f ∈ repo.files, f.extension = ".py" →
      hasNode (extract_modules repo g0).1 (moduleNodeId f.path) = true := by
  intro f hf hext
  rw [extract_modules]
  exact hasNode_extract_modules_self repo _ f hf hext

/-! ## Claim C10 -/

theorem modProv_buildGraph (repo : RepoData) (db : DbData) :
    ∀ nd ∈ (buildGraph repo db).1.nodes, ∀ i, nd.attrs = some i → i.type_ = "module" →
      ModuleNodeProv repo nd := by
  rw [buildGraph_fst]
  have P1 : ∀ nd ∈ (extract_modules repo { nodes := [], edges := [] }).1.nodes,
      ∀ i, nd.attrs = some i → i.type_ = "module" → ModuleNodeProv repo nd := by
    rw [extract_modules]
    refine foldl_inv (fun acc : Graph × List String => ∀ nd ∈ acc.1.nodes,
      ∀ i, nd.attrs = some i → i.type_ = "module" → ModuleNodeProv repo nd) _ _ _
      (by intro nd hnd; exact absurd hnd (List.not_mem_nil nd)) ?_
    intro acc f hf ha
    split
    · rename_i hext
      intro nd hnd i hi hty
      rcases mem_addNode_nodes hnd with hnew | ⟨hold, -⟩
      · exact ⟨f, hf, hext, by rw [hnew], by rw [hnew]⟩
      · exact ha nd hold i hi hty
    · exact ha
  have P2 : ∀ nd ∈ (extract_tables db
        (extract_modules repo { nodes := [], edges := [] }).1).1.nodes,
      ∀ i, nd.attrs = some i → i.type_ = "module" → ModuleNodeProv repo nd := by
    rw [extract_tables]
    refine foldl_inv (fun acc : Graph × List String => ∀ nd ∈ acc.1.nodes,
      ∀ i, nd.attrs = some i → i.type_ = "module" → ModuleNodeProv repo nd) _ _ _ P1 ?_
    intro acc t _ ha
    simp only [tableStep]
    refine foldl_inv (fun g : Graph => ∀ nd ∈ g.nodes,
      ∀ i, nd.attrs = some i → i.type_ = "module" → ModuleNodeProv repo nd) _ _ _ ?_ ?_
    · intro nd hnd i hi hty
      rcases mem_addNode_nodes hnd with hnew | ⟨hold, -⟩
      · rw [hnew] at hi
        rw [Option.some_inj.mp hi.symm] at hty
        exact absurd hty (by simp)
      · exact ha nd hold i hi hty
    · intro g c _ hg
      rw [tableFkStep]
      split
      · exact hg
      · split
        · exact hg
        · split
          · exact hg
          · intro nd hnd i hi hty
            rcases mem_addEdge_nodes hnd with hold | hs | ht2
            · exact hg nd hold i hi hty
            · rw [hs] at hi
              exact absurd hi (by simp)
            · rw [ht2] at hi
              exact absurd hi (by simp)
  have P3 : ∀ nd ∈ (analyze_code_db_dependencies repo (extract_tables db
        (extract_modules repo { nodes := [], edges := [] }).1).1).nodes,
      ∀ i, nd.attrs = some i → i.type_ = "module" → ModuleNodeProv repo nd := by
    rw [analyze_code_db_dependencies]
    refine foldl_inv (fun g : Graph => ∀ nd ∈ g.nodes,
      ∀ i, nd.attrs = some i → i.type_ = "module" → ModuleNodeProv repo nd) _ _ _ P2 ?_
    intro g f _ hg
    split
    · split
      · refine foldl_inv (fun g : Graph => ∀ nd ∈ g.nodes,
          ∀ i, nd.attrs = some i → i.type_ = "module" → ModuleNodeProv repo nd) _ _ _ hg ?_
        intro g q _ hq
        rw [queryStep]
        split
        · exact hq
        · split
          · exact hq
          · split
            · intro nd hnd i hi hty
              rcases mem_addEdge_nodes hnd with hold | hs | ht2
              · exact hq nd hold i hi hty
              · rw [hs] at hi
                exact absurd hi (by simp)
              · rw [ht2] at hi
                exact absurd hi (by simp)
            · exact hq
      · exact hg
    · exact hg
  rw [analyze_module_dependencies]
  refine foldl_inv (fun g : Graph => ∀ nd ∈ g.nodes,
    ∀ i, nd.attrs = some i → i.type_ = "module" → ModuleNodeProv repo nd) _ _ _ P3 ?_
  intro g f _ hg
  split
  · refine foldl_inv (fun g : Graph => ∀ nd ∈ g.nodes,
      ∀ i, nd.attrs = some i → i.type_ = "module" → ModuleNodeProv repo nd) _ _ _ hg ?_
    intro g imp _ hi
    rw [importStep]
    split
    · exact hi
    · split
      · intro nd hnd i hat hty
        rcases mem_addEdge_nodes hnd with hold | hs | ht2
        · exact hi nd hold i hat hty
        · rw [hs] at hat
          exact absurd hat (by simp)
        · rw [ht2] at hat
          exact absurd hat (by simp)
      · exact hi
  · exact hg

theorem edgeSrcProv_buildGraph (repo : RepoData) (db : DbData) :
    ∀ e ∈ (buildGraph repo db).1.edges, (e.type_ = "uses" ∨ e.type_ = "imports") →
      ∃ f ∈ repo.files, f.extension = ".py" ∧ e.src = moduleNodeId f.path := by
  rw [buildGraph_fst]
  have P1 : ∀ e ∈ (extract_modules repo { nodes := [], edges := [] }).1.edges,
      (e.type_ = "uses" ∨ e.type_ = "imports") →
        ∃ f ∈ repo.files, f.extension = ".py" ∧ e.src = moduleNodeId f.path := by
    rw [extract_modules]
    refine foldl_inv (fun acc : Graph × List String => ∀ e ∈ acc.1.edges,
      (e.type_ = "uses" ∨ e.type_ = "imports") →
        ∃ f ∈ repo.files, f.extension = ".py" ∧ e.src = moduleNodeId f.path) _ _ _
      (by intro e he; exact absurd he (List.not_mem_nil e)) ?_
    intro acc f _ ha
    split
    · intro e he
      rw [addNode_edges] at he
      exact ha e he
    · exact ha
  have P2 : ∀ e ∈ (extract_tables db
        (extract_modules repo { nodes := [], edges := [] }).1).1.edges,
      (e.type_ = "uses" ∨ e.type_ = "imports") →
        ∃ f ∈ repo.files, f.extension = ".py" ∧ e.src = moduleNodeId f.path := by
    rw [extract_tables]
    refine foldl_inv (fun acc : Graph × List String => ∀ e ∈ acc.1.edges,
      (e.type_ = "uses" ∨ e.type_ = "imports") →
        ∃ f ∈ repo.files, f.extension = ".py" ∧ e.src = moduleNodeId f.path) _ _ _ P1 ?_
    intro acc t _ ha
    simp only [tableStep]
    refine foldl_inv (fun g : Graph => ∀ e ∈ g.edges,
      (e.type_ = "uses" ∨ e.type_ = "imports") →
        ∃ f ∈ repo.files, f.extension = ".py" ∧ e.src = moduleNodeId f.path) _ _ _ ?_ ?_
    · intro e he
      rw [addNode_edges] at he
      exact ha e he
    · intro g c _ hg
      rw [tableFkStep]
      split
      · exact hg
      · split
        · exact hg
        · split
          · exact hg
          · intro e he hty
            rcases mem_addEdge_edges he with hnew | hold
            · rw [hnew] at hty
              rcases hty with h | h <;> exact absurd h (by simp)
            · exact hg e hold hty
  have P3 : ∀ e ∈ (analyze_code_db_dependencies repo (extract_tables db
        (extract_modules repo { nodes := [], edges := [] }).1).1).edges,
      (e.type_ = "uses" ∨ e.type_ = "imports") →
        ∃ f ∈ repo.files, f.extension = ".py" ∧ e.src = moduleNodeId f.path := by
    rw [analyze_code_db_dependencies]
    refine foldl_inv (fun g : Graph => ∀ e ∈ g.edges,
      (e.type_ = "uses" ∨ e.type_ = "imports") →
        ∃ f ∈ repo.files, f.extension = ".py" ∧ e.src = moduleNodeId f.path) _ _ _ P2 ?_
    intro g f hf hg
    split
    · rename_i hext
      split
      · refine foldl_inv (fun g : Graph => ∀ e ∈ g.edges,
          (e.type_ = "uses" ∨ e.type_ = "imports") →
            ∃ f ∈ repo.files, f.extension = ".py" ∧ e.src = moduleNodeId f.path) _ _ _ hg ?_
        intro g q _ hq
        rw [queryStep]
        split
        · exact hq
        · split
          · exact hq
          · split
            · intro e he hty
              rcases mem_addEdge_edges he with hnew | hold
              · exact ⟨f, hf, hext, by rw [hnew]⟩
              · exact hq e hold hty
            · exact hq
      · exact hg
    · exact hg
  rw [analyze_module_dependencies]
  refine foldl_inv (fun g : Graph => ∀ e ∈ g.edges,
    (e.type_ = "uses" ∨ e.type_ = "imports") →
      ∃ f ∈ repo.files, f.extension = ".py" ∧ e.src = moduleNodeId f.path) _ _ _ P3 ?_
  intro g f hf hg
  split
  · rename_i hext
    refine foldl_inv (fun g : Graph => ∀ e ∈ g.edges,
      (e.type_ = "uses" ∨ e.type_ = "imports") →
        ∃ f ∈ repo.files, f.extension = ".py" ∧ e.src = moduleNodeId f.path) _ _ _ hg ?_
    intro g imp _ hi
    rw [importStep]
    split
    · exact hi
    · split
      · intro e he hty
        rcases mem_addEdge_edges he with hnew | hold
        · exact ⟨f, hf, hext, by rw [hnew]⟩
        · exact hi e hold hty
      · exact hi
  · exact hg

theorem extract_modules_filter (repo : RepoData) (g0 : Graph) :
    extract_modules (filterPy repo) g0 = extract_modules repo g0 := by
  rw [extract_modules, extract_modules]
  simp only [filterPy]
  exact foldl_filter_id _ _ _ _ (fun a f _ hp => by rw [if_neg (by simpa using hp)])

theorem buildModuleMap_filter (repo : RepoData) :
    buildModuleMap (filterPy repo) = buildModuleMap repo := by
  rw [buildModuleMap, buildModuleMap]
  simp only [filterPy]
  exact foldl_filter_id _ _ _ _ (fun a f _ hp => by rw [if_neg (by simpa using hp)])

theorem analyze_code_db_filter (repo : RepoData) (g : Graph) :
    analyze_code_db_dependencies (filterPy repo) g = analyze_code_db_dependencies repo g := by
  rw [analyze_code_db_dependencies, analyze_code_db_dependencies]
  simp only [filterPy]
  exact foldl_filter_id _ _ _ _ (fun a f _ hp => by rw [if_neg (by simpa using hp)])

theorem analyze_module_deps_filter (repo : RepoData) (g : Graph) :
    analyze_module_dependencies (filterPy repo) g = analyze_module_dependencies repo g := by
  rw [analyze_module_dependencies, analyze_module_dependencies, buildModuleMap_filter]
  simp only [filterPy]
  exact foldl_filter_id _ _ _ _ (fun a f _ hp => by rw [if_neg (by simpa using hp)])

theorem buildGraph_filter (repo : RepoData) (db : DbData) :
    buildGraph (filterPy repo) db = buildGraph repo db := by
  simp only [buildGraph, extract_modules_filter, analyze_code_db_filter,
    analyze_module_deps_filter]

theorem build_topology_filter (repo : RepoData) (db : DbData) :
    build_topology (filterPy repo) db = build_topology repo db := by
  simp only [build_topology, buildGraph_filter]

/-- C10: only `.py` file records contribute to the topology — building from
the repository restricted to its `.py` records yields the identical
artifact; every serialized node of kind `module` originates from a `.py`
file record; and every `uses` or `imports` edge has a `.py` module record
as its source. -/
theorem C10_only_py_files_contribute (repo : RepoData) (db : DbData) :
    build_topology repo db = build_topology (filterPy repo) db
    ∧ (∀ nd ∈ (build_topology repo db).data.nodes, nd.type_ = "module" →
        ∃ f ∈ repo.files, f.extension = ".py" ∧ nd.id = moduleNodeId f.path)
    ∧ (∀ e ∈ (build_topology repo db).data.edges, (e.type_ = "uses" ∨ e.type_ = "imports") →
        ∃ f ∈ repo.files, f.extension = ".py" ∧ e.source = moduleNodeId f.path) := by
  refine ⟨(build_topology_filter repo db).symm, ?_, ?_⟩
  · intro nd hnd htype
    rw [build_topology_nodes] at hnd
    obtain ⟨n0, hn0, hmap⟩ := List.mem_map.mp hnd
    cases hattrs : n0.attrs with
    | none =>
      rw [← hmap] at htype
      simp only [serializeNodes] at htype
      rw [hattrs] at htype
      exact absurd htype (by simp)
    | some i =>
      have hi : i.type_ = "module" := by
        rw [← hmap] at htype
        simp only [serializeNodes] at htype
        rw [hattrs] at htype
        simpa using htype
      obtain ⟨f, hf, hext, hid, -⟩ := modProv_buildGraph repo db n0 hn0 i hattrs hi
      exact ⟨f, hf, hext, by rw [← hmap]; exact hid⟩
  · intro e he hty
    rw [build_topology_edges] at he
    obtain ⟨e0, he0, hmap⟩ := List.mem_map.mp he
    have hty0 : e0.type_ = "uses" ∨ e0.type_ = "imports" := by
      rw [← hmap] at hty
      exact hty
    obtain ⟨f, hf, hext, hsrc⟩ := edgeSrcProv_buildGraph repo db e0 he0 hty0
    exact ⟨f, hf, hext, by rw [← hmap]; exact hsrc⟩

/-- C10, witness: the theorem applied to a mixed-language repository, at
the concrete module node built from `a.py`. -/
theorem C10_witness :
    ∃ f ∈ repoMixed.files, f.extension = ".py"
      ∧ ({ id := "module:a.py", type_ := "module", name := "a.py",
           meta := some (.moduleMeta 3 "Python") } : SerNode).id = moduleNodeId f.path :=
  (C10_only_py_files_contribute repoMixed dbUsers).2.1
    { id := "module:a.py", type_ := "module", name := "a.py",
      meta := some (.moduleMeta 3 "Python") } (by decide) (by decide)

/-! ## Claim C2 -/

theorem noDanglingFk_spec {db : DbData} (h : noDanglingFkB db = true) :
    ∀ t ∈ db.tables, ∀ c ∈ t.columns, ∀ fk ft, c.foreign_key = some fk →
      fk.table = some ft → ft ≠ "" → ft ∈ db.tables.map (fun tb => tb.name) := by
  intro t ht c hc fk ft hfk hft hne
  rw [noDanglingFkB, List.all_eq_true] at h
  have h2 := h t ht
  rw [List.all_eq_true] at h2
  have h3 := h2 c hc
  simp only [hfk, hft] at h3
  rcases Bool.or_eq_true _ _ ▸ h3 with h4 | h4
  · exact absurd (of_decide_eq_true h4) hne
  · exact of_decide_eq_true h4

theorem endpointsOk_addNode {g : Graph} (i : String) (info : NodeInfo)
    (h : EdgeEndpointsOk g) : EdgeEndpointsOk (addNode g i info) := by
  intro e he
  rw [addNode_edges] at he
  obtain ⟨h1, h2⟩ := h e he
  exact ⟨hasNode_addNode_mono _ _ h1, hasNode_addNode_mono _ _ h2⟩

theorem endpointsOk_addEdge {g : Graph} (s t ty : String) (m : EdgeMeta)
    (h : EdgeEndpointsOk g) : EdgeEndpointsOk (addEdge g s t ty m) := by
  intro e he
  rcases mem_addEdge_edges he with hnew | hold
  · rw [hnew]
    exact ⟨hasNode_addEdge_src g s t ty m, hasNode_addEdge_tgt g s t ty m⟩
  · obtain ⟨h1, h2⟩ := h e hold
    exact ⟨hasNode_addEdge_mono _ _ _ _ h1, hasNode_addEdge_mono _ _ _ _ h2⟩

theorem endpointsOk_buildGraph (repo : RepoData) (db : DbData) :
    EdgeEndpointsOk (buildGraph repo db).1 := by
  rw [buildGraph_fst]
  have h0 : EdgeEndpointsOk { nodes := [], edges := [] } := by
    intro e he
    exact absurd he (List.not_mem_nil e)
  have h1 : EdgeEndpointsOk (extract_modules repo { nodes := [], edges := [] }).1 := by
    rw [extract_modules]
    refine foldl_inv (fun acc : Graph × List String => EdgeEndpointsOk acc.1) _ _ _ h0 ?_
    intro acc f _ ha
    split
    · exact endpointsOk_addNode _ _ ha
    · exact ha
  have h2 : EdgeEndpointsOk (extract_tables db
      (extract_modules repo { nodes := [], edges := [] }).1).1 := by
    rw [extract_tables]
    refine foldl_inv (fun acc : Graph × List String => EdgeEndpointsOk acc.1) _ _ _ h1 ?_
    intro acc t _ ha
    simp only [tableStep]
    refine foldl_inv EdgeEndpointsOk _ _ _ (endpointsOk_addNode _ _ ha) ?_
    intro g c _ hg
    rw [tableFkStep]
    split
    · exact hg
    · split
      · exact hg
      · split
        · exact hg
        · exact endpointsOk_addEdge _ _ _ _ hg
  have h3 : EdgeEndpointsOk (analyze_code_db_dependencies repo (extract_tables db
      (extract_modules repo { nodes := [], edges := [] }).1).1) := by
    rw [analyze_code_db_dependencies]
    refine foldl_inv EdgeEndpointsOk _ _ _ h2 ?_
    intro g f _ hg
    split
    · split
      · refine foldl_inv EdgeEndpointsOk _ _ _ hg ?_
        intro g q _ hq
        rw [queryStep]
        split
        · exact hq
        · split
          · exact hq
          · split
            · exact endpointsOk_addEdge _ _ _ _ hq
            · exact hq
      · exact hg
    · exact hg
  rw [analyze_module_dependencies]
  refine foldl_inv EdgeEndpointsOk _ _ _ h3 ?_
  intro g f _ hg
  split
  · refine foldl_inv EdgeEndpointsOk _ _ _ hg ?_
    intro g imp _ hi
    rw [importStep]
    split
    · exact hi
    · split
      · exact endpointsOk_addEdge _ _ _ _ hi
      · exact hi
  · exact hg

theorem tablesFold_nodeProv (repo : RepoData) (db : DbData)
    (hdangle : ∀ t ∈ db.tables, ∀ c ∈ t.columns, ∀ fk ft, c.foreign_key = some fk →
      fk.table = some ft → ft ≠ "" → ft ∈ db.tables.map (fun tb => tb.name)) :
    ∀ (rem : List TableInfo), (∀ t ∈ rem, t ∈ db.tables) →
      ∀ (acc : Graph × List String),
      (∀ nd ∈ acc.1.nodes, ModuleNodeProv repo nd ∨ TableNodeProv db nd ∨
        (nd.attrs = none ∧ ∃ name ∈ rem.map (fun t => t.name), nd.id = tableNodeId name)) →
      (∀ t ∈ db.tables, t.name ∈ rem.map (fun tb => tb.name) ∨
        hasNode acc.1 (tableNodeId t.name) = true) →
      ∀ nd ∈ (rem.foldl tableStep acc).1.nodes,
        ModuleNodeProv repo nd ∨ TableNodeProv db nd := by
  intro rem
  induction rem with
  | nil =>
    intro _ acc ha _ nd hmem
    rcases ha nd hmem with h | h | ⟨-, name, hname, -⟩
    · exact Or.inl h
    · exact Or.inr h
    · simp at hname
  | cons tb rem' ih =>
    intro hsub acc ha hb
    rw [List.foldl_cons]
    have hQfold :
        (∀ nd ∈ (tableStep acc tb).1.nodes, ModuleNodeProv repo nd ∨ TableNodeProv db nd ∨
          (nd.attrs = none ∧ ∃ name ∈ rem'.map (fun t => t.name), nd.id = tableNodeId name))
        ∧ (∀ t ∈ db.tables, t.name ∈ rem'.map (fun tb => tb.name) ∨
            hasNode (tableStep acc tb).1 (tableNodeId t.name) = true) := by
      simp only [tableStep]
      have hQ1 :
          (∀ nd ∈ (addNode acc.1 (tableNodeId tb.name)
              { type_ := "table", name := tb.name,
                meta := .tableMeta tb.columns.length tb.indexes.length }).nodes,
            ModuleNodeProv repo nd ∨ TableNodeProv db nd ∨
              (nd.attrs = none ∧ ∃ name ∈ rem'.map (fun t => t.name),
                nd.id = tableNodeId name))
          ∧ (∀ t ∈ db.tables, t.name ∈ rem'.map (fun tb => tb.name) ∨
              hasNode (addNode acc.1 (tableNodeId tb.name)
                { type_ := "table", name := tb.name,
                  meta := .tableMeta tb.columns.length tb.indexes.length })
                (tableNodeId t.name) = true)
          ∧ hasNode (addNode acc.1 (tableNodeId tb.name)
              { type_ := "table", name := tb.name,
                meta := .tableMeta tb.columns.length tb.indexes.length })
              (tableNodeId tb.name) = true := by
        refine ⟨?_, ?_, hasNode_addNode_self _ _ _⟩
        · intro nd hnd2
          rcases mem_addNode_nodes hnd2 with hnew | ⟨hold, hne⟩
          · exact Or.inr (Or.inl ⟨tb, hsub tb (List.mem_cons_self tb rem'),
              by rw [hnew], by rw [hnew]⟩)
          · rcases ha nd hold with h | h | ⟨hattrs, name, hname, hid⟩
            · exact Or.inl h
            · exact Or.inr (Or.inl h)
            · rw [List.map_cons, List.mem_cons] at hname
              rcases hname with heq | hmem'
              · rw [heq] at hid
                exact absurd hid hne
              · exact Or.inr (Or.inr ⟨hattrs, name, hmem', hid⟩)
        · intro t ht
          rcases hb t ht with hname | hhas
          · rw [List.map_cons, List.mem_cons] at hname
            rcases hname with heq | hmem'
            · rw [heq]
              exact Or.inr (hasNode_addNode_self _ _ _)
            · exact Or.inl hmem'
          · exact Or.inr (hasNode_addNode_mono _ _ hhas)
      have hfold := foldl_inv (fun g : Graph =>
          (∀ nd ∈ g.nodes, ModuleNodeProv repo nd ∨ TableNodeProv db nd ∨
            (nd.attrs = none ∧ ∃ name ∈ rem'.map (fun t => t.name),
              nd.id = tableNodeId name))
          ∧ (∀ t ∈ db.tables, t.name ∈ rem'.map (fun tb => tb.name) ∨
              hasNode g (tableNodeId t.name) = true)
          ∧ hasNode g (tableNodeId tb.name) = true)
        (tableFkStep (tableNodeId tb.name)) tb.columns _ hQ1 ?_
      · exact ⟨hfold.1, hfold.2.1⟩
      · intro g c hc hQ
        obtain ⟨hA, hBnd, htid⟩ := hQ
        rcases hfk : c.foreign_key with - | fk
        · simp only [tableFkStep, hfk]
          exact ⟨hA, hBnd, htid⟩
        · rcases hft : fk.table with - | ft
          · simp only [tableFkStep, hfk, hft]
            exact ⟨hA, hBnd, htid⟩
          · simp only [tableFkStep, hfk, hft]
            by_cases hne : ft = ""
            · rw [if_pos hne]
              exact ⟨hA, hBnd, htid⟩
            · rw [if_neg hne]
              by_cases hft2 : hasNode g (tableNodeId ft) = true
              · have hnodes := addEdge_nodes_of_hasNode "references"
                  (EdgeMeta.refMeta c.name) htid hft2
                refine ⟨?_, ?_, hasNode_addEdge_mono _ _ _ _ htid⟩
                · intro nd hnd2
                  rw [hnodes] at hnd2
                  exact hA nd hnd2
                · intro t ht
                  rcases hBnd t ht with h | h
                  · exact Or.inl h
                  · exact Or.inr (hasNode_addEdge_mono _ _ _ _ h)
              · refine ⟨?_, ?_, hasNode_addEdge_mono _ _ _ _ htid⟩
                · intro nd hnd2
                  rcases mem_addEdge_nodes_src htid hnd2 with hold | hnew
                  · exact hA nd hold
                  · have hin : ft ∈ db.tables.map (fun tb => tb.name) :=
                      hdangle tb (hsub tb (List.mem_cons_self tb rem')) c hc fk ft hfk hft hne
                    obtain ⟨t', ht', hname⟩ := List.mem_map.mp hin
                    rcases hBnd t' ht' with hrem | hhas
                    · exact Or.inr (Or.inr ⟨by rw [hnew], t'.name, hrem,
                        by rw [hnew, hname]⟩)
                    · rw [hname] at hhas
                      exact absurd hhas hft2
                · intro t ht
                  rcases hBnd t ht with h | h
                  · exact Or.inl h
                  · exact Or.inr (hasNode_addEdge_mono _ _ _ _ h)
    exact ih (fun t ht => hsub t (List.mem_cons_of_mem tb ht)) (tableStep acc tb)
      hQfold.1 hQfold.2

theorem hasNode_congr {g1 g2 : Graph} (h : g1.nodes = g2.nodes) (j : String) :
    hasNode g1 j = hasNode g2 j := by
  rw [hasNode, hasNode, h]

theorem nodesProv_extract_modules (repo : RepoData) :
    ∀ nd ∈ (extract_modules repo { nodes := [], edges := [] }).1.nodes,
      ModuleNodeProv repo nd := by
  rw [extract_modules]
  refine foldl_inv (fun acc : Graph × List String =>
    ∀ nd ∈ acc.1.nodes, ModuleNodeProv repo nd) _ _ _
    (by intro nd hnd; exact absurd hnd (List.not_mem_nil nd)) ?_
  intro acc f hf ha
  split
  · rename_i hext
    intro nd hnd
    rcases mem_addNode_nodes hnd with hnew | ⟨hold, -⟩
    · exact ⟨f, hf, hext, by rw [hnew], by rw [hnew]⟩
    · exact ha nd hold
  · exact ha

theorem analyze_code_db_nodes (repo : RepoData) (g : Graph) :
    (analyze_code_db_dependencies repo g).nodes = g.nodes := by
  rw [analyze_code_db_dependencies]
  refine foldl_inv (fun g' : Graph => g'.nodes = g.nodes) _ _ _ rfl ?_
  intro g' f _ hg'
  split
  · split
    · rename_i hmid
      refine foldl_inv (fun g'' : Graph => g''.nodes = g.nodes) _ _ _ hg' ?_
      intro g'' q _ hq
      rw [queryStep]
      split
      · exact hq
      · split
        · exact hq
        · split
          · rename_i htgt
            rw [addEdge_nodes_of_hasNode _ _ ?hs htgt]
            · exact hq
            case hs =>
              rw [hasNode_congr (hq.trans hg'.symm)]
              exact hmid
          · exact hq
    · exact hg'
  · exact hg'

theorem analyze_module_deps_nodes (repo : RepoData) {g : Graph}
    (hHas : HasAllPyModules repo g) :
    (analyze_module_dependencies repo g).nodes = g.nodes := by
  rw [analyze_module_dependencies]
  refine foldl_inv (fun g' : Graph => g'.nodes = g.nodes) _ _ _ rfl ?_
  intro g' f hf hg'
  split
  · rename_i hext
    refine foldl_inv (fun g'' : Graph => g''.nodes = g.nodes) _ _ _ hg' ?_
    intro g'' imp _ hq
    rw [importStep]
    split
    · exact hq
    · split
      · rename_i htgt
        rw [addEdge_nodes_of_hasNode _ _ ?hs2 htgt]
        · exact hq
        case hs2 =>
          rw [hasNode_congr hq]
          exact hHas f hf hext
      · exact hq
  · exact hg'

theorem nodesProv_buildGraph (repo : RepoData) (db : DbData)
    (hB : noDanglingFkB db = true) :
    ∀ nd ∈ (buildGraph repo db).1.nodes, ModuleNodeProv repo nd ∨ TableNodeProv db nd := by
  rw [buildGraph_fst]
  have h2 : ∀ nd ∈ (extract_tables db
      (extract_modules repo { nodes := [], edges := [] }).1).1.nodes,
      ModuleNodeProv repo nd ∨ TableNodeProv db nd := by
    rw [extract_tables]
    exact tablesFold_nodeProv repo db (noDanglingFk_spec hB) db.tables (fun t ht => ht) _
      (fun nd hnd => Or.inl (nodesProv_extract_modules repo nd hnd))
      (fun t ht => Or.inl (List.mem_map_of_mem _ ht))
  have hHas3 : HasAllPyModules repo (analyze_code_db_dependencies repo (extract_tables db
      (extract_modules repo { nodes := [], edges := [] }).1).1) :=
    fun f hf hext => hasNode_analyze_code_db_mono repo
      (hasNode_extract_tables_mono db (hasNode_extract_modules repo _ f hf hext))
  intro nd hnd
  rw [analyze_module_deps_nodes repo hHas3, analyze_code_db_nodes] at hnd
  exact h2 nd hnd

/-- C2, counterexample: with a dangling foreign key, the serialized node
list contains a node of type `unknown` (`table:users`) that was created
only as a side effect of the `References` edge write — refuting the claim
that every serialized node is a deliberately created module or table node. -/
theorem C2_unknown_node_from_dangling_fk :
    ({ id := "table:users", type_ := "unknown", name := "table:users", meta := none } : SerNode)
      ∈ (build_topology repoEmpty dbDangling).data.nodes
    ∧ ¬ (∀ nd ∈ (build_topology repoEmpty dbDangling).data.nodes,
          nd.type_ = "module" ∨ nd.type_ = "table") := by
  exact ⟨by decide, by decide⟩

/-- C2 (amended): provided every foreign key in the schema references a
table declared in the schema, every node in the serialized nodes list is
either a module node created from a `.py` repository file record or a
table node created from the schema; both endpoints of every serialized
edge exist in the serialized node list (a dangling foreign key instead
creates its target node as a side effect of the edge write, serialized
with type `unknown`). -/
theorem C2_nodes_deliberate_without_dangling_fk (repo : RepoData) (db : DbData)
    (hB : noDanglingFkB db = true) :
    (∀ nd ∈ (build_topology repo db).data.nodes,
      (nd.type_ = "module" ∧ ∃ f ∈ repo.files, f.extension = ".py"
        ∧ nd.id = moduleNodeId f.path)
      ∨ (nd.type_ = "table" ∧ ∃ t ∈ db.tables, nd.id = tableNodeId t.name))
    ∧ (∀ e ∈ (build_topology repo db).data.edges,
        e.source ∈ (build_topology repo db).data.nodes.map (fun n => n.id)
        ∧ e.target ∈ (build_topology repo db).data.nodes.map (fun n => n.id)) := by
  constructor
  · intro nd hnd
    rw [build_topology_nodes] at hnd
    obtain ⟨n0, hn0, hmap⟩ := List.mem_map.mp hnd
    rcases nodesProv_buildGraph repo db hB n0 hn0 with ⟨f, hf, hext, hid, hattrs⟩
      | ⟨t, ht, hid, hattrs⟩
    · refine Or.inl ⟨?_, f, hf, hext, by rw [← hmap]; exact hid⟩
      rw [← hmap]
      simp only [serializeNodes]
      rw [hattrs]
      rfl
    · refine Or.inr ⟨?_, t, ht, by rw [← hmap]; exact hid⟩
      rw [← hmap]
      simp only [serializeNodes]
      rw [hattrs]
      rfl
  · intro e he
    rw [build_topology_edges] at he
    obtain ⟨e0, he0, hmap⟩ := List.mem_map.mp he
    obtain ⟨hs, ht⟩ := endpointsOk_buildGraph repo db e0 he0
    rw [build_topology_nodes, serializeNodes, List.map_map]
    obtain ⟨ns, hns, hnsid⟩ := hasNode_iff.mp hs
    obtain ⟨nt, hnt, hntid⟩ := hasNode_iff.mp ht
    constructor
    · exact List.mem_map.mpr ⟨ns, hns, by rw [← hmap]; exact hnsid⟩
    · exact List.mem_map.mpr ⟨nt, hnt, by rw [← hmap]; exact hntid⟩

/-- C2, witness: the amended theorem applied to a clean schema, at the
concrete `users` table node. -/
theorem C2_witness :
    (({ id := "table:users", type_ := "table", name := "users",
        meta := some (.tableMeta 1 0) } : SerNode).type_ = "module"
      ∧ ∃ f ∈ repoMixed.files, f.extension = ".py"
        ∧ ({ id := "table:users", type_ := "table", name := "users",
             meta := some (.tableMeta 1 0) } : SerNode).id = moduleNodeId f.path)
    ∨ (({ id := "table:users", type_ := "table", name := "users",
          meta := some (.tableMeta 1 0) } : SerNode).type_ = "table"
      ∧ ∃ t ∈ dbUsers.tables,
        ({ id := "table:users", type_ := "table", name := "users",
           meta := some (.tableMeta 1 0) } : SerNode).id = tableNodeId t.name) :=
  (C2_nodes_deliberate_without_dangling_fk repoMixed dbUsers (by decide)).1
    { id := "table:users", type_ := "table", name := "users", meta := some (.tableMeta 1 0) }
    (by decide)

end Alip
